import Mathlib

/-!
list_linux: raw `getdents64` directory lister with resynchronisation

A shallow embedding of `src/pkg/osrecovery/list_linux/main.c`.

* Memory is a list of bytes `mem`, indexed from the address of `buf`; the first
  `BUF_SIZE` bytes are the array `buf` itself.  A byte is a natural number
  taken modulo 256; indices past the end of the list read as 0.
* The record header is `struct linux_dirent64` in the x86-64 layout
  (little endian): `d_ino` at bytes 0-7, `d_off` at 8-15, `d_reclen` at 16-17,
  `d_type` at 18, `d_name` from 19, and `sizeof` the struct is 24.
* The cursor `bpos` is a `long` below `nread <= BUF_SIZE` whenever something is
  added to it, and what is added is a 16-bit value or 24 plus a string length,
  so no 64-bit wrap-around occurs and `Nat` arithmetic is exact.
* Loops carry a fuel argument; `none` means the fuel ran out.
-/

namespace ListLinux

/-! ## Constants -/

/-- `#define BUF_SIZE 1024`. -/
def BUF_SIZE : Nat := 1024

/-- The value of `sizeof(struct linux_dirent64)`: 19 bytes of fields padded to the 8-byte alignment. -/
def SIZEOF_DIRENT : Nat := 24

/-- `DT_FIFO` of `<dirent.h>`. -/
def DT_FIFO : Nat := 1
/-- `DT_CHR` of `<dirent.h>`. -/
def DT_CHR : Nat := 2
/-- `DT_DIR` of `<dirent.h>`. -/
def DT_DIR : Nat := 4
/-- `DT_BLK` of `<dirent.h>`. -/
def DT_BLK : Nat := 6
/-- `DT_REG` of `<dirent.h>`. -/
def DT_REG : Nat := 8
/-- `DT_LNK` of `<dirent.h>`. -/
def DT_LNK : Nat := 10
/-- `DT_SOCK` of `<dirent.h>`. -/
def DT_SOCK : Nat := 12

/-- `EXIT_SUCCESS` of `<stdlib.h>`. -/
def EXIT_SUCCESS : Nat := 0
/-- `EXIT_FAILURE` of `<stdlib.h>`. -/
def EXIT_FAILURE : Nat := 1

/-! ## Memory -/

/-- The byte at index `i` counted from the start of `buf`. -/
def byteAt (mem : List Nat) (i : Nat) : Nat := mem.getD i 0 % 256

/-- Unsigned little-endian load of `k` bytes at index `i`. -/
def loadLE (mem : List Nat) (i : Nat) : Nat → Nat
  | 0 => 0
  | k + 1 => byteAt mem i + 256 * loadLE mem (i + 1) k

/-- The C string at index `i`: the bytes before the first NUL. -/
def cstring (mem : List Nat) (i : Nat) : List Nat :=
  ((mem.drop i).map (· % 256)).takeWhile (· ≠ 0)

/-- The value of `strlen(buf + i)`. -/
def strlen (mem : List Nat) (i : Nat) : Nat := (cstring mem i).length

/-- A 64-bit pattern read as a signed integer (`off64_t`, `long`, `intmax_t`). -/
def toInt64 (u : Nat) : Int := if u < 2 ^ 63 then (u : Int) else (u : Int) - 2 ^ 64

/-! ## Directory entries -/

/-- The fields of one `struct linux_dirent64` as the program reads them. -/
structure Dirent where
  d_ino : Nat
  d_off : Int
  d_reclen : Nat
  d_type : Nat
  d_name : List Nat
deriving DecidableEq

/-- The value of `*(struct linux_dirent64 *)(buf + bpos)`, field by field. -/
def readDirent (mem : List Nat) (bpos : Nat) : Dirent :=
  { d_ino := loadLE mem bpos 8
    d_off := toInt64 (loadLE mem (bpos + 8) 8)
    d_reclen := loadLE mem (bpos + 16) 2
    d_type := byteAt mem (bpos + 18)
    d_name := cstring mem (bpos + 19) }

/-- What the decode loop does, in order: it reads a byte of memory, or it writes an entry. -/
inductive Event where
  | load (i : Nat)
  | emit (bpos : Nat) (d : Dirent)
deriving DecidableEq

/-- The reads of a `k`-byte access at index `i`. -/
def loads (i k : Nat) : List Event := (List.range' i k).map Event.load

/-- Lines 45-61: the field reads of the five `dprintf` calls at cursor `bpos`, then the
entry written.  The name is read up to and including its NUL. -/
def emitEvents (mem : List Nat) (bpos : Nat) : List Event :=
  loads bpos 8 ++ loads (bpos + 18) 1 ++ loads (bpos + 16) 2 ++ loads (bpos + 8) 8
    ++ loads (bpos + 19) (strlen mem (bpos + 19) + 1) ++ [Event.emit bpos (readDirent mem bpos)]

/-- The `switch` of lines 75-87: the seven type tags that stop the scan. -/
def knownType (t : Nat) : Bool :=
  t == DT_REG || t == DT_DIR || t == DT_FIFO || t == DT_SOCK || t == DT_LNK
    || t == DT_BLK || t == DT_CHR

/-- Lines 69-89: `while (bpos < nread)` over candidate offsets.  Returns the cursor on leaving
the loop and the reads made. -/
def scan (mem : List Nat) (nread : Nat) : Nat → Nat → Option (Nat × List Event)
  | 0, bpos => if bpos < nread then none else some (bpos, [])
  | fuel + 1, bpos =>
    if bpos < nread then
      if loadLE mem (bpos + 16) 2 > BUF_SIZE then
        (scan mem nread fuel (bpos + 1)).map fun r => (r.1, loads (bpos + 16) 2 ++ r.2)
      else if knownType (byteAt mem (bpos + 18)) then
        some (bpos, loads (bpos + 16) 2 ++ loads (bpos + 18) 1)
      else
        (scan mem nread fuel (bpos + 1)).map fun r =>
          (r.1, loads (bpos + 16) 2 ++ loads (bpos + 18) 1 ++ r.2)
    else some (bpos, [])

/-- Lines 45-89: one pass through the body of the `for` loop at cursor `bpos < nread`.
Returns the next cursor and the events of the pass. -/
def step (mem : List Nat) (nread fuel bpos : Nat) : Option (Nat × List Event) :=
  let d := readDirent mem bpos
  let ev := emitEvents mem bpos ++ loads (bpos + 16) 2
  if d.d_reclen ≠ 0 then
    some (bpos + d.d_reclen, ev)
  else
    let ev2 := ev ++ loads (bpos + 19) (strlen mem (bpos + 19) + 1)
    (scan mem nread fuel (bpos + SIZEOF_DIRENT + strlen mem (bpos + 19))).map fun r =>
      (r.1, ev2 ++ r.2)

/-- Line 44: `for (long bpos = 0; bpos < nread;)`, started at an arbitrary cursor. -/
def decodeLoop (mem : List Nat) (nread : Nat) : Nat → Nat → Option (List Event)
  | 0, bpos => if bpos < nread then none else some []
  | fuel + 1, bpos =>
    if bpos < nread then
      match step mem nread fuel bpos with
      | none => none
      | some (bpos', ev) => (decodeLoop mem nread fuel bpos').map fun rest => ev ++ rest
    else some []

/-- Decoding of one fill: the loop from cursor 0, with fuel `nread`. -/
def decodeFill (mem : List Nat) (nread : Nat) : Option (List Event) :=
  decodeLoop mem nread nread 0

/-! ## Projections of a trace -/

/-- The entries written, in order. -/
def entries : List Event → List Dirent
  | [] => []
  | Event.load _ :: es => entries es
  | Event.emit _ d :: es => d :: entries es

/-- The cursor offsets at which entries were written, in order. -/
def offsets : List Event → List Nat
  | [] => []
  | Event.load _ :: es => offsets es
  | Event.emit b _ :: es => b :: offsets es

/-- The indices of the bytes read, in order. -/
def loadIndices : List Event → List Nat
  | [] => []
  | Event.load i :: es => i :: loadIndices es
  | Event.emit _ _ :: es => loadIndices es

/-- The entries of one fill (empty if the fuel ran out, which never happens). -/
def fillEntries (mem : List Nat) (nread : Nat) : List Dirent :=
  match decodeFill mem nread with
  | some evs => entries evs
  | none => []

/-! ## Output -/

/-- Decimal digits of `n`, most significant first, as ASCII bytes, in front of `acc`. -/
def decimalAux : Nat → Nat → List Nat → List Nat
  | 0, _, acc => acc
  | fuel + 1, n, acc =>
    if n < 10 then (48 + n) :: acc else decimalAux fuel (n / 10) ((48 + n % 10) :: acc)

/-- The text `printf` writes for a non-negative value under a decimal conversion. -/
def decimal (n : Nat) : List Nat := decimalAux (n + 1) n []

/-- The text `printf` writes for a signed value under `%d`, `%ld` or `%jd`. -/
def fmtInt (i : Int) : List Nat :=
  if i < 0 then 45 :: decimal i.natAbs else decimal i.natAbs

/-- Lines 48-54: the label chosen by the chain of conditionals on `d_type`. -/
def typeLabel (t : Nat) : List Nat :=
  if t = DT_REG then [114, 101, 103, 117, 108, 97, 114]                -- "regular"
  else if t = DT_DIR then [100, 105, 114, 101, 99, 116, 111, 114, 121] -- "directory"
  else if t = DT_FIFO then [70, 73, 70, 79]                            -- "FIFO"
  else if t = DT_SOCK then [115, 111, 99, 107, 101, 116]               -- "socket"
  else if t = DT_LNK then [115, 121, 109, 108, 105, 110, 107]          -- "symlink"
  else if t = DT_BLK then [98, 108, 111, 99, 107, 32, 100, 101, 118]   -- "block dev"
  else if t = DT_CHR then [99, 104, 97, 114, 32, 100, 101, 118]        -- "char dev"
  else [63, 63, 63]                                                    -- "???"

/-- The conversion `%-10s`: left-justified, padded with spaces to 10 bytes. -/
def padLeft10 (s : List Nat) : List Nat := s ++ List.replicate (10 - s.length) 32

/-- Lines 46-61: the bytes written to descriptor 1 for one entry.  `d_ino` goes through
`%ld`, so its 64-bit pattern is printed as a signed `long`. -/
def render (d : Dirent) : List Nat :=
  fmtInt (toInt64 d.d_ino) ++ [0, 9] ++ padLeft10 (typeLabel d.d_type) ++ [0, 9]
    ++ decimal d.d_reclen ++ [0, 9] ++ fmtInt d.d_off ++ [0, 9] ++ d.d_name ++ [0, 10]

/-- The bytes written for a sequence of entries. -/
def renderAll : List Dirent → List Nat
  | [] => []
  | d :: ds => render d ++ renderAll ds

/-- The file types of the data model. -/
inductive FileType where
  | Regular | Directory | Fifo | Socket | Symlink | BlockDevice | CharDevice | Unknown
deriving DecidableEq

/-- The file type a tag byte stands for, by the chain of conditionals of lines 48-54. -/
def fileType (t : Nat) : FileType :=
  if t = DT_REG then FileType.Regular
  else if t = DT_DIR then FileType.Directory
  else if t = DT_FIFO then FileType.Fifo
  else if t = DT_SOCK then FileType.Socket
  else if t = DT_LNK then FileType.Symlink
  else if t = DT_BLK then FileType.BlockDevice
  else if t = DT_CHR then FileType.CharDevice
  else FileType.Unknown

/-- The label written for each file type. -/
def FileType.label : FileType → List Nat
  | FileType.Regular => [114, 101, 103, 117, 108, 97, 114]
  | FileType.Directory => [100, 105, 114, 101, 99, 116, 111, 114, 121]
  | FileType.Fifo => [70, 73, 70, 79]
  | FileType.Socket => [115, 111, 99, 107, 101, 116]
  | FileType.Symlink => [115, 121, 109, 108, 105, 110, 107]
  | FileType.BlockDevice => [98, 108, 111, 99, 107, 32, 100, 101, 118]
  | FileType.CharDevice => [99, 104, 97, 114, 32, 100, 101, 118]
  | FileType.Unknown => [63, 63, 63]

/-- The fields of an entry as the data model has them: inode, file type, record length, next
cookie, name. -/
def Dirent.fields (d : Dirent) : Nat × FileType × Nat × Int × List Nat :=
  (d.d_ino, fileType d.d_type, d.d_reclen, d.d_off, d.d_name)

/-- What holds of every entry read from memory: the inode is a 64-bit value and the name, read
up to its NUL, has no NUL in it. -/
def Dirent.Decoded (d : Dirent) : Prop := d.d_ino < 2 ^ 64 ∧ 0 ∉ d.d_name

/-- The number a decimal text stands for. -/
def decVal (s : List Nat) : Nat := s.foldl (fun a b => 10 * a + (b - 48)) 0

/-! ## The run -/

/-- The result of one `syscall(SYS_getdents64, fd, buf, BUF_SIZE)`: it returned -1, or it
returned `nread >= 0` and left memory as `mem`. -/
inductive Fill where
  | failed
  | data (nread : Nat) (mem : List Nat)

/-- How the run ended: `exit(code)`; the listed fills ran out before the loop ended; or a
decode loop ran out of fuel. -/
inductive Status where
  | exited (code : Nat)
  | pending
  | stuck
deriving DecidableEq

/-- What a run leaves behind: the bytes on descriptor 1 and how it ended. -/
structure RunResult where
  out : List Nat
  status : Status
deriving DecidableEq

/-- Lines 36-93: the `for (;;)` loop over fills, `out` being what was written so far. -/
def fillLoop : List Fill → List Nat → RunResult
  | [], out => ⟨out, Status.pending⟩
  | Fill.failed :: _, out => ⟨out, Status.exited EXIT_FAILURE⟩
  | Fill.data nread mem :: rest, out =>
    if nread = 0 then ⟨out, Status.exited EXIT_SUCCESS⟩
    else
      match decodeFill mem nread with
      | none => ⟨out, Status.stuck⟩
      | some evs => fillLoop rest (out ++ renderAll (entries evs))

/-- Lines 32-93: `main`, given whether `open` succeeded and the results of the successive
`getdents64` calls. -/
def main (openOk : Bool) (fills : List Fill) : RunResult :=
  if openOk then fillLoop fills [] else ⟨[], Status.exited EXIT_FAILURE⟩

/-! ## Record layout, as the kernel writes it -/

/-- The `k` low bytes of `v`, least significant first. -/
def leBytes : Nat → Nat → List Nat
  | 0, _ => []
  | k + 1, v => v % 256 :: leBytes k (v / 256)

/-- The 64-bit pattern of a signed value. -/
def ofInt64 (i : Int) : Nat := (i % 2 ^ 64).toNat

/-- A record in a fill: its fields and the padding bytes after the name's NUL. -/
structure Rec where
  d : Dirent
  pad : List Nat

/-- The bytes of a record: inode at 0-7, next cookie at 8-15, record length at 16-17, type
tag at 18, the name from 19 with its NUL, then the padding. -/
def encode (r : Rec) : List Nat :=
  leBytes 8 r.d.d_ino ++ leBytes 8 (ofInt64 r.d.d_off) ++ leBytes 2 r.d.d_reclen
    ++ [r.d.d_type] ++ r.d.d_name ++ [0] ++ r.pad

/-- The fields fit their widths and the name is made of bytes other than NUL. -/
def Rec.FieldsOk (r : Rec) : Prop :=
  r.d.d_ino < 2 ^ 64 ∧ -(2 ^ 63) ≤ r.d.d_off ∧ r.d.d_off < 2 ^ 63 ∧ r.d.d_reclen < 2 ^ 16
    ∧ r.d.d_type < 256 ∧ (∀ b ∈ r.d.d_name, 0 < b ∧ b < 256)

/-- The fields fit, and the record length is the length of the encoding: 19 bytes of header,
the name, its NUL, and the padding. -/
def Rec.Valid (r : Rec) : Prop :=
  r.FieldsOk ∧ r.d.d_reclen = 20 + r.d.d_name.length + r.pad.length

/-- The bytes of a sequence of records laid out one after the other. -/
def encodeAll : List Rec → List Nat
  | [] => []
  | r :: rs => encode r ++ encodeAll rs

/-- The offsets at which the records start when they are laid out from offset `b`. -/
def starts : Nat → List Rec → List Nat
  | _, [] => []
  | b, r :: rs => b :: starts (b + (encode r).length) rs

/-- A fill that returned a positive length. -/
def Fill.isPositive : Fill → Bool
  | Fill.data nread _ => decide (nread ≠ 0)
  | Fill.failed => false

/-- The rendered entries of one fill, decoded on its own from cursor 0. -/
def fillOutput : Fill → List Nat
  | Fill.data nread mem => renderAll (fillEntries mem nread)
  | Fill.failed => []

/-! ## Well-formed fills -/

/-- Records of the lengths `lens` lie one after the other from offset `bpos`: each length is
the nonzero `d_reclen` found at the start of its record. -/
def LaidOut (mem : List Nat) : Nat → List Nat → Prop
  | _, [] => True
  | bpos, r :: rs => (readDirent mem bpos).d_reclen = r ∧ r ≠ 0 ∧ LaidOut mem (bpos + r) rs

/-- A fill of `n` bytes whose records are laid out contiguously from offset 0, each with a
nonzero record length, the lengths adding up to `n`. -/
def WellFormedFill (mem : List Nat) (n : Nat) : Prop :=
  ∃ lens, LaidOut mem 0 lens ∧ lens.sum = n

/-- The bytes read while decoding one fill. -/
def fillLoads (mem : List Nat) (nread : Nat) : List Nat :=
  match decodeFill mem nread with
  | some evs => loadIndices evs
  | none => []

/-- The record with its `d_reclen` field overwritten by 0, everything else intact. -/
def zeroed (r : Rec) : Rec :=
  { d := { d_ino := r.d.d_ino, d_off := r.d.d_off, d_reclen := 0, d_type := r.d.d_type,
           d_name := r.d.d_name }
    pad := r.pad }

/-- Lines 71-87: the test a candidate offset `s` passes to end the scan. -/
def candidateOk (mem : List Nat) (s : Nat) : Bool :=
  decide (loadLE mem (s + 16) 2 ≤ BUF_SIZE) && knownType (byteAt mem (s + 18))

/-! ## Example data -/

/-- The record of the regular file `report.txt`: inode 42, next cookie 32, length 32. -/
def reportRec : Rec :=
  ⟨⟨42, 32, 32, DT_REG, [114, 101, 112, 111, 114, 116, 46, 116, 120, 116]⟩, [0, 0]⟩

/-- The record of a regular file `a`: inode 1, next cookie 24, length 24. -/
def recA : Rec := ⟨⟨1, 24, 24, DT_REG, [97]⟩, [0, 0, 0]⟩

/-- The record of a regular file `b`: inode 2, next cookie 48, length 24. -/
def recB : Rec := ⟨⟨2, 48, 24, DT_REG, [98]⟩, [0, 0, 0]⟩

/-- A 1024-byte buffer after a fill of 48 bytes: the record of `a` with its length
overwritten by 0, the record of `b`, and zero bytes after the fill. -/
def damagedBuf : List Nat := encode (zeroed recA) ++ encode recB ++ List.replicate 976 0

/-- The record of a regular file `hello`: inode 1, next cookie 32, length 32. -/
def recHello : Rec := ⟨⟨1, 32, 32, DT_REG, [104, 101, 108, 108, 111]⟩, [0, 0, 0, 0, 0, 0, 0]⟩

/-- The record of a regular file `world`: inode 2, next cookie 64, length 32. -/
def recWorld : Rec := ⟨⟨2, 64, 32, DT_REG, [119, 111, 114, 108, 100]⟩, [0, 0, 0, 0, 0, 0, 0]⟩

/-- The record of a file `world` whose type the filesystem does not report (tag 0,
`DT_UNKNOWN`): inode 2, next cookie 64, length 32. -/
def recWorldUnknown : Rec :=
  ⟨⟨2, 64, 32, 0, [119, 111, 114, 108, 100]⟩, [0, 0, 0, 0, 0, 0, 0]⟩

/-- The 32 bytes of the record of `hello`, but declaring a record length of 2000. -/
def recHelloBig : Rec := ⟨⟨1, 32, 2000, DT_REG, [104, 101, 108, 108, 111]⟩, [0, 0, 0, 0, 0, 0, 0]⟩

/-- A 1024-byte buffer after a fill of 64 bytes: the record of `hello` with its length
overwritten by 0, then the record of `world` with type tag 0. -/
def unknownNextBuf : List Nat :=
  encode (zeroed recHello) ++ encode recWorldUnknown ++ List.replicate 960 0

/-- A 1024-byte buffer after a fill of 64 bytes: the record of `hello` declaring length 2000,
then the record of `world`. -/
def oversizedBuf : List Nat := encode recHelloBig ++ encode recWorld ++ List.replicate 960 0

/-- An entry for `report.txt` with type tag 0. -/
def reportTag0 : Dirent := ⟨42, 32, 32, 0, [114, 101, 112, 111, 114, 116, 46, 116, 120, 116]⟩

/-- An entry for `report.txt` with type tag 3, which no `DT_` constant of the chain has. -/
def reportTag3 : Dirent := ⟨42, 32, 32, 3, [114, 101, 112, 111, 114, 116, 46, 116, 120, 116]⟩

/-! ## Cursors -/

/-- Line 44: the values the cursor `bpos` has at the head of the `for` loop while it is below
`nread`, from a given cursor on. -/
def cursors (mem : List Nat) (nread : Nat) : Nat → Nat → List Nat
  | 0, _ => []
  | fuel + 1, bpos =>
    if bpos < nread then
      match step mem nread fuel bpos with
      | none => [bpos]
      | some (bpos', _) => bpos :: cursors mem nread fuel bpos'
    else []

/-- How a cursor `a` leads to the next cursor `b` inside the fill: by adding the declared
length when it is nonzero (lines 62-65); otherwise `b` is where the scan stops, that is the
first offset from `a + 24 + strlen` on that passes the scan's test (lines 68-89). -/
def Follows (mem : List Nat) (nread a b : Nat) : Prop :=
  b < nread ∧
    (((readDirent mem a).d_reclen ≠ 0 ∧ b = a + (readDirent mem a).d_reclen)
      ∨ ((readDirent mem a).d_reclen = 0
          ∧ a + SIZEOF_DIRENT + strlen mem (a + 19) ≤ b
          ∧ candidateOk mem b = true
          ∧ ∀ s, a + SIZEOF_DIRENT + strlen mem (a + 19) ≤ s → s < b →
              candidateOk mem s = false))

/-- The offsets from which the entries of one fill are emitted. -/
def fillOffsets (mem : List Nat) (nread : Nat) : List Nat :=
  match decodeFill mem nread with
  | some evs => offsets evs
  | none => []

/-- The record of a regular file `hello` whose inode has the top bit set: inode 2^63, next
cookie 32, length 32. -/
def recHighIno : Rec :=
  ⟨⟨9223372036854775808, 32, 32, DT_REG, [104, 101, 108, 108, 111]⟩, [0, 0, 0, 0, 0, 0, 0]⟩

/-- The record of a regular file `world` whose next cookie is a hash with top byte 8
(0x0800000000000040): inode 2, length 32. -/
def recCookie : Rec :=
  ⟨⟨2, 576460752303423552, 32, DT_REG, [119, 111, 114, 108, 100]⟩, [0, 0, 0, 0, 0, 0, 0]⟩

/-- A 1024-byte buffer after a fill of 64 bytes: the record of `hello` with its length
overwritten by 0, then the record of `world` with the hash cookie. -/
def cookieBuf : List Nat := encode (zeroed recHello) ++ encode recCookie ++ List.replicate 960 0

/-- A 1024-byte buffer after a fill of 64 bytes: the record of `hello` with its length
overwritten by 0, then the record of `world`. -/
def resyncBuf : List Nat := encode (zeroed recHello) ++ encode recWorld ++ List.replicate 960 0

/-- The record of a regular file whose 30-byte name is 21 bytes `x`, then the bytes 1, 1, 8,
then 6 bytes `x`: inode 1, next cookie 56, length 56. -/
def recLongName : Rec :=
  ⟨⟨1, 56, 56, DT_REG,
      [120, 120, 120, 120, 120, 120, 120, 120, 120, 120, 120, 120, 120, 120, 120, 120, 120,
        120, 120, 120, 120, 1, 1, 8, 120, 120, 120, 120, 120, 120]⟩,
    [0, 0, 0, 0, 0, 0]⟩

/-- A 1024-byte buffer after a fill of 88 bytes: the record with the 30-byte name, its length
overwritten by 0, then the record of `world`. -/
def longNameBuf : List Nat :=
  encode (zeroed recLongName) ++ encode recWorld ++ List.replicate 936 0

/-! ## Traces -/

@[simp] theorem entries_append (a b : List Event) : entries (a ++ b) = entries a ++ entries b := by
  induction a with
  | nil => rfl
  | cons e a ih => cases e <;> simp [entries, ih]

@[simp] theorem offsets_append (a b : List Event) : offsets (a ++ b) = offsets a ++ offsets b := by
  induction a with
  | nil => rfl
  | cons e a ih => cases e <;> simp [offsets, ih]

@[simp] theorem loadIndices_append (a b : List Event) :
    loadIndices (a ++ b) = loadIndices a ++ loadIndices b := by
  induction a with
  | nil => rfl
  | cons e a ih => cases e <;> simp [loadIndices, ih]

@[simp] theorem entries_nil : entries [] = [] := rfl

@[simp] theorem entries_load_cons (i : Nat) (es : List Event) :
    entries (Event.load i :: es) = entries es := rfl

@[simp] theorem entries_emit_cons (b : Nat) (d : Dirent) (es : List Event) :
    entries (Event.emit b d :: es) = d :: entries es := rfl

@[simp] theorem offsets_nil : offsets [] = [] := rfl

@[simp] theorem offsets_load_cons (i : Nat) (es : List Event) :
    offsets (Event.load i :: es) = offsets es := rfl

@[simp] theorem offsets_emit_cons (b : Nat) (d : Dirent) (es : List Event) :
    offsets (Event.emit b d :: es) = b :: offsets es := rfl

theorem entries_map_load (l : List Nat) : entries (l.map Event.load) = [] := by
  induction l with
  | nil => rfl
  | cons a l ih => simpa [entries] using ih

theorem offsets_map_load (l : List Nat) : offsets (l.map Event.load) = [] := by
  induction l with
  | nil => rfl
  | cons a l ih => simpa [offsets] using ih

theorem loadIndices_map_load (l : List Nat) : loadIndices (l.map Event.load) = l := by
  induction l with
  | nil => rfl
  | cons a l ih => simpa [loadIndices] using ih

@[simp] theorem entries_loads (i k : Nat) : entries (loads i k) = [] :=
  entries_map_load _

@[simp] theorem offsets_loads (i k : Nat) : offsets (loads i k) = [] :=
  offsets_map_load _

@[simp] theorem loadIndices_loads (i k : Nat) : loadIndices (loads i k) = List.range' i k :=
  loadIndices_map_load _

@[simp] theorem entries_emitEvents (mem : List Nat) (bpos : Nat) :
    entries (emitEvents mem bpos) = [readDirent mem bpos] := by
  simp only [emitEvents, entries_append, entries_loads, entries_emit_cons, entries_nil,
    List.nil_append]

@[simp] theorem offsets_emitEvents (mem : List Nat) (bpos : Nat) :
    offsets (emitEvents mem bpos) = [bpos] := by
  simp only [emitEvents, offsets_append, offsets_loads, offsets_emit_cons, offsets_nil,
    List.nil_append]

/-! ## Progress of the loops -/

theorem scan_isSome (mem : List Nat) (nread : Nat) :
    ∀ fuel bpos, nread - bpos ≤ fuel → ∃ r, scan mem nread fuel bpos = some r := by
  intro fuel
  induction fuel with
  | zero =>
    intro bpos h
    have : ¬ bpos < nread := by omega
    simp [scan, this]
  | succ fuel ih =>
    intro bpos h
    by_cases hb : bpos < nread
    · obtain ⟨r, hr⟩ := ih (bpos + 1) (by omega)
      by_cases h1 : loadLE mem (bpos + 16) 2 > BUF_SIZE
      · simp [scan, hb, h1, hr]
      · by_cases h2 : knownType (byteAt mem (bpos + 18)) = true
        · simp [scan, hb, h1, h2]
        · simp [scan, hb, h1, h2, hr]
    · simp [scan, hb]

theorem scan_ge (mem : List Nat) (nread : Nat) :
    ∀ fuel bpos r, scan mem nread fuel bpos = some r → bpos ≤ r.1 := by
  intro fuel
  induction fuel with
  | zero =>
    intro bpos r h
    by_cases hb : bpos < nread
    · simp [scan, hb] at h
    · simp [scan, hb] at h; subst h; exact Nat.le_refl _
  | succ fuel ih =>
    intro bpos r h
    by_cases hb : bpos < nread
    · cases hs : scan mem nread fuel (bpos + 1) with
      | none =>
        by_cases h1 : loadLE mem (bpos + 16) 2 > BUF_SIZE
        · simp [scan, hb, h1, hs] at h
        · by_cases h2 : knownType (byteAt mem (bpos + 18)) = true
          · simp [scan, hb, h1, h2] at h; subst h; exact Nat.le_refl _
          · simp [scan, hb, h1, h2, hs] at h
      | some r' =>
        have := ih _ _ hs
        by_cases h1 : loadLE mem (bpos + 16) 2 > BUF_SIZE
        · simp [scan, hb, h1, hs] at h; subst h; simp only; omega
        · by_cases h2 : knownType (byteAt mem (bpos + 18)) = true
          · simp [scan, hb, h1, h2] at h; subst h; exact Nat.le_refl _
          · simp [scan, hb, h1, h2, hs] at h; subst h; simp only; omega
    · simp [scan, hb] at h; subst h; exact Nat.le_refl _

theorem step_isSome (mem : List Nat) (nread fuel bpos : Nat) (h : nread - bpos ≤ fuel + 1) :
    ∃ r, step mem nread fuel bpos = some r := by
  by_cases h0 : (readDirent mem bpos).d_reclen = 0
  · obtain ⟨r, hr⟩ := scan_isSome mem nread fuel (bpos + SIZEOF_DIRENT + strlen mem (bpos + 19))
      (by simp only [SIZEOF_DIRENT]; omega)
    simp [step, h0, hr]
  · simp [step, h0]

theorem step_lt (mem : List Nat) (nread fuel bpos : Nat) (r : Nat × List Event)
    (h : step mem nread fuel bpos = some r) : bpos < r.1 := by
  by_cases h0 : (readDirent mem bpos).d_reclen = 0
  · cases hs : scan mem nread fuel (bpos + SIZEOF_DIRENT + strlen mem (bpos + 19)) with
    | none => simp [step, h0, hs] at h
    | some r' =>
      have := scan_ge _ _ _ _ _ hs
      simp only [SIZEOF_DIRENT] at this
      simp [step, h0, hs] at h
      subst h
      simp only; omega
  · simp [step, h0] at h
    subst h
    simp only; omega

theorem decodeLoop_isSome (mem : List Nat) (nread : Nat) :
    ∀ fuel bpos, nread - bpos ≤ fuel → ∃ evs, decodeLoop mem nread fuel bpos = some evs := by
  intro fuel
  induction fuel with
  | zero =>
    intro bpos h
    have : ¬ bpos < nread := by omega
    simp [decodeLoop, this]
  | succ fuel ih =>
    intro bpos h
    by_cases hb : bpos < nread
    · obtain ⟨r, hr⟩ := step_isSome mem nread fuel bpos h
      have hlt := step_lt _ _ _ _ _ hr
      obtain ⟨evs, hevs⟩ := ih r.1 (by omega)
      obtain ⟨b, ev⟩ := r
      simp [decodeLoop, hb, hr, hevs]
    · simp [decodeLoop, hb]

theorem decodeFill_isSome (mem : List Nat) (nread : Nat) :
    ∃ evs, decodeFill mem nread = some evs :=
  decodeLoop_isSome mem nread nread 0 (by omega)

/-! ## Memory after a known stretch of bytes -/

theorem byteAt_append_right (pre m : List Nat) (i : Nat) :
    byteAt (pre ++ m) (pre.length + i) = byteAt m i := by
  simp [byteAt, List.getD_eq_getElem?_getD, List.getElem?_append_right]

theorem loadLE_append_right (pre m : List Nat) (k : Nat) :
    ∀ i, loadLE (pre ++ m) (pre.length + i) k = loadLE m i k := by
  induction k with
  | zero => intro i; rfl
  | succ k ih =>
    intro i
    simp only [loadLE, byteAt_append_right, Nat.add_assoc, ih]

theorem cstring_append_right (pre m : List Nat) (i : Nat) :
    cstring (pre ++ m) (pre.length + i) = cstring m i := by
  simp [cstring, List.drop_append]

theorem readDirent_append_right (pre m : List Nat) (i : Nat) :
    readDirent (pre ++ m) (pre.length + i) = readDirent m i := by
  simp only [readDirent, Nat.add_assoc, loadLE_append_right, byteAt_append_right,
    cstring_append_right]

theorem byteAt_append_at (pre m : List Nat) (i j : Nat) (h : j = pre.length + i) :
    byteAt (pre ++ m) j = byteAt m i := by
  subst h; exact byteAt_append_right _ _ _

theorem loadLE_append_at (pre m : List Nat) (k i j : Nat) (h : j = pre.length + i) :
    loadLE (pre ++ m) j k = loadLE m i k := by
  subst h; exact loadLE_append_right _ _ _ _

theorem cstring_append_at (pre m : List Nat) (i j : Nat) (h : j = pre.length + i) :
    cstring (pre ++ m) j = cstring m i := by
  subst h; exact cstring_append_right _ _ _

theorem readDirent_append_at (pre m : List Nat) (i j : Nat) (h : j = pre.length + i) :
    readDirent (pre ++ m) j = readDirent m i := by
  subst h; exact readDirent_append_right _ _ _

theorem length_leBytes (k : Nat) : ∀ v, (leBytes k v).length = k := by
  induction k with
  | zero => intro v; rfl
  | succ k ih => intro v; simp [leBytes, ih]

theorem loadLE_leBytes (k : Nat) : ∀ v rest, loadLE (leBytes k v ++ rest) 0 k = v % 256 ^ k := by
  induction k with
  | zero => intro v rest; simp [loadLE, Nat.mod_one]
  | succ k ih =>
    intro v rest
    have h := loadLE_append_right [v % 256] (leBytes k (v / 256) ++ rest) k 0
    simp only [List.length_singleton, List.singleton_append] at h
    simp only [leBytes, loadLE, List.cons_append, Nat.zero_add]
    rw [Nat.add_comm 1 0] at h
    rw [h, ih, pow_succ', Nat.mod_mul]
    simp [byteAt]

theorem cstring_name (name rest : List Nat) (h : ∀ b ∈ name, 0 < b ∧ b < 256) :
    cstring (name ++ 0 :: rest) 0 = name := by
  induction name with
  | nil => simp [cstring]
  | cons a name ih =>
    have ha := h a (List.mem_cons_self _ _)
    have ih' := ih (fun b hb => h b (List.mem_cons_of_mem _ hb))
    have hmod : a % 256 = a := Nat.mod_eq_of_lt ha.2
    have hne : a ≠ 0 := by omega
    unfold cstring at ih' ⊢
    simp only [List.drop_zero, List.cons_append, List.map_cons, List.takeWhile_cons, hmod] at ih' ⊢
    rw [ih']
    simp [hne]

theorem toInt64_ofInt64 (i : Int) (h1 : -(2 ^ 63) ≤ i) (h2 : i < 2 ^ 63) :
    toInt64 (ofInt64 i % 2 ^ 64) = i := by
  unfold toInt64 ofInt64
  omega

theorem length_encode (r : Rec) :
    (encode r).length = 20 + r.d.d_name.length + r.pad.length := by
  simp only [encode, List.length_append, length_leBytes, List.length_singleton]
  omega

theorem encode_append (r : Rec) (post : List Nat) :
    encode r ++ post = leBytes 8 r.d.d_ino ++ (leBytes 8 (ofInt64 r.d.d_off)
      ++ (leBytes 2 r.d.d_reclen ++ ([r.d.d_type] ++ (r.d.d_name ++ 0 :: (r.pad ++ post))))) := by
  simp [encode]

theorem readDirent_encode (r : Rec) (post : List Nat) (hv : r.FieldsOk) :
    readDirent (encode r ++ post) 0 = r.d := by
  obtain ⟨h1, h2, h3, h4, h5, h6⟩ := hv
  rw [encode_append]
  have e1 : ∀ m, loadLE (leBytes 8 r.d.d_ino ++ m) 0 8 = r.d.d_ino := by
    intro m; rw [loadLE_leBytes]; exact Nat.mod_eq_of_lt (by simpa using h1)
  have e2 : ∀ m, toInt64 (loadLE (leBytes 8 (ofInt64 r.d.d_off) ++ m) 0 8) = r.d.d_off := by
    intro m; rw [loadLE_leBytes]; exact toInt64_ofInt64 _ h2 h3
  have e3 : ∀ m, loadLE (leBytes 2 r.d.d_reclen ++ m) 0 2 = r.d.d_reclen := by
    intro m; rw [loadLE_leBytes]; exact Nat.mod_eq_of_lt (by simpa using h4)
  have e4 : ∀ m, byteAt ([r.d.d_type] ++ m) 0 = r.d.d_type := by
    intro m; simp [byteAt, Nat.mod_eq_of_lt h5]
  have e5 : ∀ m, cstring (r.d.d_name ++ 0 :: m) 0 = r.d.d_name :=
    fun m => cstring_name _ _ h6
  have l8 : ∀ v, (leBytes 8 v).length = 8 := length_leBytes 8
  have l2 : ∀ v, (leBytes 2 v).length = 2 := length_leBytes 2
  simp only [readDirent, Nat.zero_add]
  rw [e1]
  rw [loadLE_append_at _ _ 8 0 8 (by rw [l8]), e2]
  rw [loadLE_append_at _ _ 2 8 16 (by rw [l8]), loadLE_append_at _ _ 2 0 8 (by rw [l8]), e3]
  rw [byteAt_append_at _ _ 10 18 (by rw [l8]), byteAt_append_at _ _ 2 10 (by rw [l8]),
    byteAt_append_at _ _ 0 2 (by rw [l2]), e4]
  rw [cstring_append_at _ _ 11 19 (by rw [l8]), cstring_append_at _ _ 3 11 (by rw [l8]),
    cstring_append_at _ _ 1 3 (by rw [l2]), cstring_append_at _ _ 0 1 (by simp), e5]

/-! ## The fast path -/

theorem decodeLoop_of_ge (mem : List Nat) (nread fuel bpos : Nat) (h : nread ≤ bpos) :
    decodeLoop mem nread fuel bpos = some [] := by
  have : ¬ bpos < nread := by omega
  cases fuel <;> simp [decodeLoop, this]

theorem decodeLoop_fast (mem : List Nat) (nread fuel bpos : Nat) (hb : bpos < nread)
    (hr : (readDirent mem bpos).d_reclen ≠ 0) :
    decodeLoop mem nread (fuel + 1) bpos
      = (decodeLoop mem nread fuel (bpos + (readDirent mem bpos).d_reclen)).map
          fun rest => (emitEvents mem bpos ++ loads (bpos + 16) 2) ++ rest := by
  simp [decodeLoop, step, hb, hr]

theorem Rec.Valid.reclen_eq {r : Rec} (hv : r.Valid) : r.d.d_reclen = (encode r).length := by
  rw [length_encode]; exact hv.2

theorem Rec.Valid.reclen_pos {r : Rec} (hv : r.Valid) : 20 ≤ r.d.d_reclen := by
  have := hv.2; omega

theorem decodeLoop_records (recs : List Rec) (hv : ∀ r ∈ recs, r.Valid) :
    ∀ (pre post : List Nat) (nread fuel : Nat),
      pre.length + (encodeAll recs).length ≤ nread → nread - pre.length ≤ fuel →
      ∃ fuel' evs, nread - (pre.length + (encodeAll recs).length) ≤ fuel'
        ∧ entries evs = recs.map Rec.d ∧ offsets evs = starts pre.length recs
        ∧ decodeLoop (pre ++ (encodeAll recs ++ post)) nread fuel pre.length
          = (decodeLoop (pre ++ (encodeAll recs ++ post)) nread fuel'
              (pre.length + (encodeAll recs).length)).map fun rest => evs ++ rest := by
  induction recs with
  | nil =>
    intro pre post nread fuel _ hf
    refine ⟨fuel, [], by simpa [encodeAll] using hf, rfl, rfl, ?_⟩
    simp [encodeAll]
  | cons r rs ih =>
    intro pre post nread fuel hn hf
    have hr := hv r (List.mem_cons_self _ _)
    have hlen := hr.reclen_eq
    have hpos := hr.reclen_pos
    have hmem : pre ++ (encodeAll (r :: rs) ++ post)
        = (pre ++ encode r) ++ (encodeAll rs ++ post) := by simp [encodeAll]
    have hmem2 : pre ++ (encodeAll (r :: rs) ++ post)
        = pre ++ (encode r ++ (encodeAll rs ++ post)) := by simp [encodeAll]
    have hrd : readDirent (pre ++ (encodeAll (r :: rs) ++ post)) pre.length = r.d := by
      rw [hmem2, readDirent_append_at pre _ 0 pre.length (by simp), readDirent_encode _ _ hr.1]
    have hl : (encodeAll (r :: rs)).length = r.d.d_reclen + (encodeAll rs).length := by
      simp [encodeAll, hlen]
    rw [hl] at hn ⊢
    obtain ⟨f, rfl⟩ : ∃ f, fuel = f + 1 := ⟨fuel - 1, by omega⟩
    obtain ⟨fuel', evs, h1, h2, ho, h3⟩ := ih (fun x hx => hv x (List.mem_cons_of_mem _ hx))
      (pre ++ encode r) post nread f
      (by rw [List.length_append, ← hlen]; omega)
      (by rw [List.length_append, ← hlen]; omega)
    rw [List.length_append] at ho
    rw [List.length_append, ← hlen] at h1 h3
    refine ⟨fuel', (emitEvents (pre ++ (encodeAll (r :: rs) ++ post)) pre.length
      ++ loads (pre.length + 16) 2) ++ evs, by omega, ?_, ?_, ?_⟩
    · simp [h2, hrd]
    · simp [ho, starts]
    · rw [← hmem] at h3
      rw [decodeLoop_fast _ _ _ _ (by omega) (by rw [hrd]; omega), hrd, h3, Nat.add_assoc]
      simp [Option.map_map, Function.comp_def]

theorem decodeLoop_laidOut (mem : List Nat) (nread : Nat) :
    ∀ (lens : List Nat) (bpos fuel : Nat), LaidOut mem bpos lens → bpos + lens.sum = nread →
      nread - bpos ≤ fuel →
      ∃ evs, decodeLoop mem nread fuel bpos = some evs
        ∧ (entries evs).map Dirent.d_reclen = lens := by
  intro lens
  induction lens with
  | nil =>
    intro bpos fuel _ hs _
    exact ⟨[], decodeLoop_of_ge _ _ _ _ (by simp at hs; omega), rfl⟩
  | cons r rs ih =>
    intro bpos fuel hl hs hf
    obtain ⟨h1, h2, h3⟩ := hl
    simp only [List.sum_cons] at hs
    obtain ⟨f, rfl⟩ : ∃ f, fuel = f + 1 := ⟨fuel - 1, by omega⟩
    obtain ⟨evs, he, hm⟩ := ih (bpos + r) f h3 (by omega) (by omega)
    refine ⟨(emitEvents mem bpos ++ loads (bpos + 16) 2) ++ evs, ?_, ?_⟩
    · rw [decodeLoop_fast _ _ _ _ (by omega) (by rw [h1]; exact h2), h1, he]
      rfl
    · simp [hm, h1]

/-! ## Independence of the fuel -/

theorem scan_fuel (mem : List Nat) (nread : Nat) :
    ∀ f1 f2 bpos, nread - bpos ≤ f1 → nread - bpos ≤ f2 →
      scan mem nread f1 bpos = scan mem nread f2 bpos := by
  intro f1
  induction f1 with
  | zero =>
    intro f2 bpos h1 _
    have : ¬ bpos < nread := by omega
    cases f2 <;> simp [scan, this]
  | succ f1 ih =>
    intro f2 bpos h1 h2
    by_cases hb : bpos < nread
    · obtain ⟨g, rfl⟩ : ∃ g, f2 = g + 1 := ⟨f2 - 1, by omega⟩
      simp only [scan, hb, if_true]
      rw [ih g (bpos + 1) (by omega) (by omega)]
    · cases f2 <;> simp [scan, hb]

theorem step_fuel (mem : List Nat) (nread f1 f2 bpos : Nat) (h1 : nread - bpos ≤ f1 + 1)
    (h2 : nread - bpos ≤ f2 + 1) : step mem nread f1 bpos = step mem nread f2 bpos := by
  simp only [step]
  rw [scan_fuel mem nread f1 f2 _ (by simp only [SIZEOF_DIRENT]; omega)
    (by simp only [SIZEOF_DIRENT]; omega)]

theorem decodeLoop_fuel (mem : List Nat) (nread : Nat) :
    ∀ f1 f2 bpos, nread - bpos ≤ f1 → nread - bpos ≤ f2 →
      decodeLoop mem nread f1 bpos = decodeLoop mem nread f2 bpos := by
  intro f1
  induction f1 with
  | zero =>
    intro f2 bpos h1 _
    have : ¬ bpos < nread := by omega
    cases f2 <;> simp [decodeLoop, this]
  | succ f1 ih =>
    intro f2 bpos h1 h2
    by_cases hb : bpos < nread
    · obtain ⟨g, rfl⟩ : ∃ g, f2 = g + 1 := ⟨f2 - 1, by omega⟩
      simp only [decodeLoop, hb, if_true]
      rw [step_fuel mem nread f1 g bpos h1 h2]
      cases hs : step mem nread g bpos with
      | none => rfl
      | some r =>
        obtain ⟨b, ev⟩ := r
        have := step_lt _ _ _ _ _ hs
        simp only at this ⊢
        rw [ih g b (by omega) (by omega)]
    · cases f2 <;> simp [decodeLoop, hb]

/-! ## The claims -/

/-- C1, at a failing input: in a 1024-byte buffer filled with 48 bytes (the record of `a` with
its length overwritten by 0, then the record of `b`), decoding the fill reads the byte at
index 65, past the 48 bytes of the fill. -/
theorem damaged_fill_reads_past_fill : ∃ i ∈ fillLoads damagedBuf 48, 48 ≤ i :=
  ⟨65, by decide, by decide⟩

/-- C2: decoding one fill terminates.  With fuel `n` the loop from cursor 0 returns a trace,
and any larger fuel returns the same trace; from any cursor, fuel `n - bpos` is enough for the
outer loop and for the scan; the scan never moves the cursor back; and every pass through
the outer loop's body strictly increases the cursor. -/
theorem decode_terminates (mem : List Nat) (n : Nat) :
    (∃ evs, decodeFill mem n = some evs)
    ∧ (∀ fuel, n ≤ fuel → decodeLoop mem n fuel 0 = decodeFill mem n)
    ∧ (∀ fuel bpos, n - bpos ≤ fuel → ∃ evs, decodeLoop mem n fuel bpos = some evs)
    ∧ (∀ fuel bpos, n - bpos ≤ fuel → ∃ r, scan mem n fuel bpos = some r ∧ bpos ≤ r.1)
    ∧ (∀ fuel bpos r, step mem n fuel bpos = some r → bpos < r.1) := by
  refine ⟨decodeFill_isSome mem n, ?_, decodeLoop_isSome mem n, ?_, step_lt mem n⟩
  · intro fuel h
    exact decodeLoop_fuel mem n fuel n 0 (by omega) (by omega)
  · intro fuel bpos h
    obtain ⟨r, hr⟩ := scan_isSome mem n fuel bpos h
    exact ⟨r, hr, scan_ge _ _ _ _ _ hr⟩

/-- C3: for every well-formed fill of `n` bytes (records laid out contiguously from offset 0,
each with a nonzero record length, the lengths adding up to `n`), the decoder returns, and
the record lengths of the entries it emits add up to `n`. -/
theorem sum_reclen_wellFormed (mem : List Nat) (n : Nat) (h : WellFormedFill mem n) :
    ∃ evs, decodeFill mem n = some evs ∧ ((entries evs).map Dirent.d_reclen).sum = n := by
  obtain ⟨lens, hl, hs⟩ := h
  obtain ⟨evs, he, hm⟩ := decodeLoop_laidOut mem n lens 0 n hl (by omega) (by omega)
  exact ⟨evs, he, by rw [hm]; exact hs⟩

/-- Witness of C3: the 32-byte fill holding the record of `report.txt`. -/
theorem sum_reclen_wellFormed_witness :
    WellFormedFill (encode reportRec) 32
    ∧ ∃ evs, decodeFill (encode reportRec) 32 = some evs
        ∧ ((entries evs).map Dirent.d_reclen).sum = 32 :=
  have hw : WellFormedFill (encode reportRec) 32 := ⟨[32], ⟨by decide, by decide, trivial⟩, rfl⟩
  ⟨hw, sum_reclen_wellFormed _ _ hw⟩

/-- C4: a fill that is the contiguous encoding of valid records `r1..rk` (whatever follows it
in memory) decodes to exactly `k` entries, in order, the i-th entry being the fields of
`ri`, read at the offset where `ri` starts. -/
theorem decode_encodeAll (recs : List Rec) (rest : List Nat) (hv : ∀ r ∈ recs, r.Valid) :
    ∃ evs, decodeFill (encodeAll recs ++ rest) (encodeAll recs).length = some evs
      ∧ entries evs = recs.map Rec.d ∧ offsets evs = starts 0 recs := by
  obtain ⟨fuel', evs, _, h2, ho, h3⟩ := decodeLoop_records recs hv [] rest
    (encodeAll recs).length (encodeAll recs).length (by simp) (by simp)
  simp only [List.nil_append, List.length_nil, Nat.zero_add] at h3
  refine ⟨evs, ?_, h2, ho⟩
  rw [decodeFill, h3, decodeLoop_of_ge _ _ _ _ (Nat.le_refl _)]
  simp

/-- Witness of C4: the single 32-byte record of the regular file `report.txt` with inode 42,
record length 32 and next cookie 32 decodes to exactly those fields. -/
theorem decode_encodeAll_witness :
    (∀ r ∈ [reportRec], r.Valid)
    ∧ (encodeAll [reportRec]).length = 32
    ∧ [reportRec].map Rec.d
        = [⟨42, 32, 32, 8, [114, 101, 112, 111, 114, 116, 46, 116, 120, 116]⟩]
    ∧ fileType 8 = FileType.Regular
    ∧ ∃ evs, decodeFill (encodeAll [reportRec] ++ []) (encodeAll [reportRec]).length = some evs
        ∧ entries evs = [reportRec].map Rec.d ∧ offsets evs = starts 0 [reportRec] :=
  have hv : ∀ r ∈ [reportRec], r.Valid := by
    intro r hr
    rw [List.mem_singleton] at hr
    subst hr
    exact ⟨⟨by decide, by decide, by decide, by decide, by decide, by decide⟩, by decide⟩
  ⟨hv, by decide, rfl, rfl, decode_encodeAll _ _ hv⟩


/-! ## A record with its length overwritten -/

theorem encodeAll_append (a b : List Rec) : encodeAll (a ++ b) = encodeAll a ++ encodeAll b := by
  induction a with
  | nil => rfl
  | cons r a ih => simp [encodeAll, ih]

theorem starts_append (a c : List Rec) :
    ∀ b, starts b (a ++ c) = starts b a ++ starts (b + (encodeAll a).length) c := by
  induction a with
  | nil => intro b; simp [starts, encodeAll]
  | cons r a ih =>
    intro b
    simp [starts, encodeAll, ih, Nat.add_assoc]

theorem length_encode_zeroed (r : Rec) : (encode (zeroed r)).length = (encode r).length := by
  simp [length_encode, zeroed]

theorem zeroed_fieldsOk {r : Rec} (h : r.FieldsOk) : (zeroed r).FieldsOk := by
  obtain ⟨h1, h2, h3, _, h5, h6⟩ := h
  exact ⟨h1, h2, h3, by simp [zeroed], h5, h6⟩

/-! ## The scan -/

theorem scan_reject (mem : List Nat) (nread fuel bpos : Nat) (hb : bpos < nread)
    (hp : candidateOk mem bpos = false) :
    ∃ ev, scan mem nread (fuel + 1) bpos
      = (scan mem nread fuel (bpos + 1)).map fun r => (r.1, ev ++ r.2) := by
  by_cases h1 : loadLE mem (bpos + 16) 2 > BUF_SIZE
  · exact ⟨loads (bpos + 16) 2, by simp only [scan, hb, h1, if_true]⟩
  · have h2 : knownType (byteAt mem (bpos + 18)) = false := by
      simp only [candidateOk, Bool.and_eq_false_iff, decide_eq_false_iff_not] at hp
      rcases hp with hp | hp
      · exact absurd (Nat.le_of_not_gt h1) hp
      · exact hp
    exact ⟨loads (bpos + 16) 2 ++ loads (bpos + 18) 1,
      by simp only [scan, hb, h1, h2, if_true, if_false, Bool.false_eq_true]⟩

theorem scan_accept (mem : List Nat) (nread fuel bpos : Nat) (hb : bpos < nread)
    (hp : candidateOk mem bpos = true) :
    scan mem nread (fuel + 1) bpos = some (bpos, loads (bpos + 16) 2 ++ loads (bpos + 18) 1) := by
  simp only [candidateOk, Bool.and_eq_true, decide_eq_true_eq] at hp
  have h1 : ¬ loadLE mem (bpos + 16) 2 > BUF_SIZE := by omega
  simp [scan, hb, h1, hp.2]

theorem scan_all_rejected (mem : List Nat) (nread : Nat) :
    ∀ fuel a, (∀ s, a ≤ s → s < nread → candidateOk mem s = false) → nread - a ≤ fuel →
      ∃ c ev, scan mem nread fuel a = some (c, ev) ∧ nread ≤ c := by
  intro fuel
  induction fuel with
  | zero =>
    intro a _ hf
    have : ¬ a < nread := by omega
    exact ⟨a, [], by simp [scan, this], by omega⟩
  | succ fuel ih =>
    intro a hrej hf
    by_cases hb : a < nread
    · obtain ⟨ev, he⟩ := scan_reject mem nread fuel a hb (hrej a (Nat.le_refl _) hb)
      obtain ⟨c, ev', hs, hc⟩ := ih (a + 1) (fun s h1 h2 => hrej s (by omega) h2) (by omega)
      exact ⟨c, ev ++ ev', by rw [he, hs]; rfl, hc⟩
    · exact ⟨a, [], by simp [scan, hb], by omega⟩

theorem scan_first_accepted (mem : List Nat) (nread b : Nat) (hb : b < nread)
    (hp : candidateOk mem b = true) :
    ∀ fuel a, a ≤ b → (∀ s, a ≤ s → s < b → candidateOk mem s = false) → nread - a ≤ fuel →
      ∃ ev, scan mem nread fuel a = some (b, ev) := by
  intro fuel
  induction fuel with
  | zero => intro a hab _ hf; omega
  | succ fuel ih =>
    intro a hab hrej hf
    by_cases hab' : a = b
    · subst hab'
      exact ⟨_, scan_accept mem nread fuel a hb hp⟩
    · obtain ⟨ev, he⟩ := scan_reject mem nread fuel a (by omega) (hrej a (Nat.le_refl _) (by omega))
      obtain ⟨ev', hs⟩ := ih (a + 1) (by omega) (fun s h1 h2 => hrej s (by omega) h2) (by omega)
      exact ⟨ev ++ ev', by rw [he, hs]; rfl⟩

theorem scan_entries (mem : List Nat) (nread : Nat) :
    ∀ fuel bpos r, scan mem nread fuel bpos = some r → entries r.2 = [] ∧ offsets r.2 = [] := by
  intro fuel
  induction fuel with
  | zero =>
    intro bpos r h
    by_cases hb : bpos < nread
    · simp [scan, hb] at h
    · simp [scan, hb] at h; subst h; exact ⟨rfl, rfl⟩
  | succ fuel ih =>
    intro bpos r h
    by_cases hb : bpos < nread
    · cases hs : scan mem nread fuel (bpos + 1) with
      | none =>
        by_cases h1 : loadLE mem (bpos + 16) 2 > BUF_SIZE
        · simp [scan, hb, h1, hs] at h
        · by_cases h2 : knownType (byteAt mem (bpos + 18)) = true
          · simp [scan, hb, h1, h2] at h; subst h; simp
          · simp [scan, hb, h1, h2, hs] at h
      | some r' =>
        have := ih _ _ hs
        by_cases h1 : loadLE mem (bpos + 16) 2 > BUF_SIZE
        · simp [scan, hb, h1, hs] at h; subst h; simpa using this
        · by_cases h2 : knownType (byteAt mem (bpos + 18)) = true
          · simp [scan, hb, h1, h2] at h; subst h; simp
          · simp [scan, hb, h1, h2, hs] at h; subst h; simpa using this
    · simp [scan, hb] at h; subst h; exact ⟨rfl, rfl⟩

theorem decodeLoop_resync (mem : List Nat) (nread fuel bpos : Nat) (hb : bpos < nread)
    (hr : (readDirent mem bpos).d_reclen = 0) (c : Nat) (ev : List Event)
    (hs : scan mem nread fuel (bpos + SIZEOF_DIRENT + strlen mem (bpos + 19)) = some (c, ev)) :
    ∃ ev', entries ev' = [readDirent mem bpos] ∧ offsets ev' = [bpos] ∧
      decodeLoop mem nread (fuel + 1) bpos
        = (decodeLoop mem nread fuel c).map fun rest => ev' ++ rest := by
  refine ⟨emitEvents mem bpos ++ loads (bpos + 16) 2
      ++ loads (bpos + 19) (strlen mem (bpos + 19) + 1) ++ ev, ?_, ?_, ?_⟩
  · simp [(scan_entries _ _ _ _ _ hs).1]
  · simp [(scan_entries _ _ _ _ _ hs).2]
  · simp [decodeLoop, step, hb, hr, hs]


/-- C5 as amended: in a fill of at most 1024 bytes that encodes valid records, one of which
has its record length overwritten by 0, the decoder emits the records before it, then the
damaged record (with length 0), then every following record with its fields, each read at
the true start of its record, provided that
no offset from `start + 24 + length(name)` up to the true start of the following record
passes the scan's test and that, when a record follows, the original record length is at
least `24 + length(name)` and the following record's type tag is one of the seven the scan
accepts. -/
theorem resume_after_zeroed (recs1 : List Rec) (r : Rec) (recs2 : List Rec)
    (rest mem : List Nat)
    (hmem : mem = encodeAll recs1 ++ (encode (zeroed r) ++ (encodeAll recs2 ++ rest)))
    (hv1 : ∀ x ∈ recs1, x.Valid) (hr : r.Valid) (hv2 : ∀ x ∈ recs2, x.Valid)
    (hn : (encodeAll (recs1 ++ r :: recs2)).length ≤ BUF_SIZE)
    (hstart : recs2 ≠ [] → SIZEOF_DIRENT + r.d.d_name.length ≤ r.d.d_reclen)
    (hscan : ∀ s, (encodeAll recs1).length + SIZEOF_DIRENT + r.d.d_name.length ≤ s →
      s < (encodeAll recs1).length + r.d.d_reclen → candidateOk mem s = false)
    (hnext : ∀ x ∈ recs2.head?, knownType x.d.d_type = true) :
    ∃ evs, decodeFill mem (encodeAll (recs1 ++ r :: recs2)).length = some evs
      ∧ entries evs = recs1.map Rec.d ++ (zeroed r).d :: recs2.map Rec.d
      ∧ offsets evs = starts 0 (recs1 ++ r :: recs2) := by
  have hR := hr.reclen_eq
  have hst0 : starts 0 (recs1 ++ r :: recs2)
      = starts 0 recs1 ++ (encodeAll recs1).length
          :: starts ((encodeAll recs1).length + r.d.d_reclen) recs2 := by
    rw [starts_append, Nat.zero_add, starts, ← hR]
  rw [hst0]
  have hRpos := hr.reclen_pos
  have hN : (encodeAll (recs1 ++ r :: recs2)).length
      = (encodeAll recs1).length + r.d.d_reclen + (encodeAll recs2).length := by
    simp [encodeAll_append, encodeAll, hR]; omega
  rw [hN] at hn ⊢
  generalize hoff : (encodeAll recs1).length = off at *
  generalize hnr : off + r.d.d_reclen + (encodeAll recs2).length = nread at *
  -- the records before the damaged one
  obtain ⟨f1, evs1, hf1, he1, ho1, hd1⟩ := decodeLoop_records recs1 hv1 []
    (encode (zeroed r) ++ (encodeAll recs2 ++ rest)) nread nread
    (by simp only [List.length_nil, hoff]; omega) (by simp)
  simp only [List.nil_append, List.length_nil, Nat.zero_add, hoff, ← hmem] at hd1 hf1 ho1
  -- the damaged record
  have hrd : readDirent mem off = (zeroed r).d := by
    rw [hmem, readDirent_append_at _ _ 0 off (by simp [hoff]),
      readDirent_encode _ _ (zeroed_fieldsOk hr.1)]
  have hlen : strlen mem (off + 19) = r.d.d_name.length := by
    have : (readDirent mem off).d_name = r.d.d_name := by rw [hrd]; rfl
    exact congrArg List.length this
  obtain ⟨g, rfl⟩ : ∃ g, f1 = g + 1 := ⟨f1 - 1, by omega⟩
  have hz : (readDirent mem off).d_reclen = 0 := by rw [hrd]; rfl
  cases recs2 with
  | nil =>
    have hL : nread = off + r.d.d_reclen := by simpa [encodeAll] using hnr.symm
    obtain ⟨c, ev, hs, hc⟩ := scan_all_rejected mem nread g
      (off + SIZEOF_DIRENT + strlen mem (off + 19))
      (fun s h1 h2 => hscan s (by rw [← hlen]; exact h1) (by omega))
      (by simp only [SIZEOF_DIRENT]; omega)
    obtain ⟨ev', hev', hov', hd2⟩ := decodeLoop_resync mem nread g off (by omega) hz c ev hs
    refine ⟨evs1 ++ (ev' ++ []), ?_, ?_, ?_⟩
    · rw [decodeFill, hd1, hd2, decodeLoop_of_ge _ _ _ _ hc]
      rfl
    · simp [he1, hev', hrd]
    · simp [ho1, hov', starts]
  | cons x xs =>
    have hx := hv2 x (List.mem_cons_self _ _)
    have hxpos := hx.reclen_pos
    have hL2 : (encodeAll (x :: xs)).length = x.d.d_reclen + (encodeAll xs).length := by
      simp [encodeAll, hx.reclen_eq]
    rw [hL2] at hnr
    have hpre : (encodeAll recs1 ++ encode (zeroed r)).length = off + r.d.d_reclen := by
      rw [List.length_append, hoff, length_encode_zeroed, ← hR]
    have hmem' : mem = (encodeAll recs1 ++ encode (zeroed r))
        ++ (encodeAll (x :: xs) ++ rest) := by
      rw [hmem, List.append_assoc]
    have hrdx : readDirent mem (off + r.d.d_reclen) = x.d := by
      have : mem = (encodeAll recs1 ++ encode (zeroed r))
          ++ (encode x ++ (encodeAll xs ++ rest)) := by
        rw [hmem']; simp [encodeAll]
      rw [this, readDirent_append_at _ _ 0 _ (by rw [hpre]; rfl), readDirent_encode _ _ hx.1]
    have hpl : candidateOk mem (off + r.d.d_reclen) = true := by
      have h1 : loadLE mem (off + r.d.d_reclen + 16) 2 = x.d.d_reclen :=
        congrArg Dirent.d_reclen hrdx
      have h2 : byteAt mem (off + r.d.d_reclen + 18) = x.d.d_type :=
        congrArg Dirent.d_type hrdx
      have h3 := hnext x (by simp)
      simp only [candidateOk, h1, h2, h3, Bool.and_true, decide_eq_true_eq]
      omega
    have hst := hstart (by simp)
    obtain ⟨ev, hs⟩ := scan_first_accepted mem nread (off + r.d.d_reclen) (by omega) hpl g
      (off + SIZEOF_DIRENT + strlen mem (off + 19)) (by rw [hlen]; omega)
      (fun s h1 h2 => hscan s (by rw [← hlen]; exact h1) h2)
      (by simp only [SIZEOF_DIRENT]; omega)
    obtain ⟨ev', hev', hov', hd2⟩ := decodeLoop_resync mem nread g off (by omega) hz _ ev hs
    obtain ⟨f3, evs3, hf3, he3, ho3, hd3⟩ := decodeLoop_records (x :: xs) hv2
      (encodeAll recs1 ++ encode (zeroed r)) rest nread g
      (by rw [hpre, hL2]; omega) (by rw [hpre]; omega)
    rw [hpre] at ho3
    rw [← hmem', hpre] at hd3
    refine ⟨evs1 ++ (ev' ++ (evs3 ++ [])), ?_, ?_, ?_⟩
    · rw [decodeFill, hd1, hd2, hd3, decodeLoop_of_ge _ _ _ _ (by rw [hL2]; omega)]
      rfl
    · simp [he1, hev', hrd, he3]
    · simp [ho1, hov', ho3]


theorem recHello_valid : recHello.Valid :=
  ⟨⟨by decide, by decide, by decide, by decide, by decide, by decide⟩, by decide⟩

theorem recWorld_valid : recWorld.Valid :=
  ⟨⟨by decide, by decide, by decide, by decide, by decide, by decide⟩, by decide⟩

theorem recWorldUnknown_valid : recWorldUnknown.Valid :=
  ⟨⟨by decide, by decide, by decide, by decide, by decide, by decide⟩, by decide⟩

/-- Witness of C5 as amended: `hello` with its length zeroed, followed by `world`. -/
theorem resume_after_zeroed_witness :
    recHello.Valid ∧ recWorld.Valid
    ∧ ∃ evs, decodeFill (encodeAll [] ++ (encode (zeroed recHello) ++ (encodeAll [recWorld] ++ [])))
          (encodeAll ([] ++ recHello :: [recWorld])).length = some evs
        ∧ entries evs = ([] : List Rec).map Rec.d ++ (zeroed recHello).d :: [recWorld].map Rec.d
        ∧ offsets evs = starts 0 ([] ++ recHello :: [recWorld]) :=
  ⟨recHello_valid, recWorld_valid,
    resume_after_zeroed [] recHello [recWorld] [] _ rfl (by simp) recHello_valid
      (by intro x hx; rw [List.mem_singleton] at hx; subst hx; exact recWorld_valid)
      (by decide) (by intro _; decide)
      (by
        intro s h1 h2
        have h1' : 29 ≤ s := h1
        have h2' : s < 32 := h2
        interval_cases s <;> decide)
      (by intro x hx; simp at hx; subst hx; decide)⟩

/-- Counterexample to C5: `hello` with its length zeroed, followed by the valid record of
`world` whose type tag is 0.  The decoder emits the damaged record only; the scan passes over
the true start of the following record (offset 32), and that record is never emitted. -/
theorem zeroed_then_unknown_type_lost :
    recHello.Valid ∧ recWorldUnknown.Valid
    ∧ fillEntries unknownNextBuf 64 = [(zeroed recHello).d]
    ∧ recWorldUnknown.d ∉ fillEntries unknownNextBuf 64 :=
  ⟨recHello_valid, recWorldUnknown_valid, by decide, by decide⟩


/-- C6 as amended: at a cursor whose record length is nonzero but larger than what is left
of the fill, the pass emits the entry and adds the declared length to the cursor, with no
scan; the new cursor is at or past the end of the fill, so the entry is the last of the
fill. -/
theorem oversized_reclen_ends_fill (mem : List Nat) (nread fuel bpos : Nat) (hb : bpos < nread)
    (h0 : (readDirent mem bpos).d_reclen ≠ 0)
    (hbig : nread - bpos < (readDirent mem bpos).d_reclen) :
    step mem nread fuel bpos
        = some (bpos + (readDirent mem bpos).d_reclen, emitEvents mem bpos ++ loads (bpos + 16) 2)
    ∧ nread ≤ bpos + (readDirent mem bpos).d_reclen
    ∧ decodeLoop mem nread (fuel + 1) bpos = some (emitEvents mem bpos ++ loads (bpos + 16) 2)
    ∧ entries (emitEvents mem bpos ++ loads (bpos + 16) 2) = [readDirent mem bpos] := by
  refine ⟨by simp [step, h0], by omega, ?_, by simp⟩
  rw [decodeLoop_fast _ _ _ _ hb h0, decodeLoop_of_ge _ _ _ _ (by omega)]
  simp

/-- Witness of C6 as amended: the record of `hello` declaring length 2000 in a fill of 64
bytes. -/
theorem oversized_reclen_ends_fill_witness :
    (readDirent oversizedBuf 0).d_reclen = 2000
    ∧ decodeLoop oversizedBuf 64 (63 + 1) 0
        = some (emitEvents oversizedBuf 0 ++ loads (0 + 16) 2) :=
  ⟨by decide,
    (oversized_reclen_ends_fill oversizedBuf 64 63 0 (by decide) (by decide) (by decide)).2.2.1⟩

/-- Counterexample to C6: in a fill of 64 bytes the record at offset 0 declares length 2000,
more than the 64 bytes left and more than the buffer capacity.  The next cursor is 0 + 2000,
not the offset 32 that the scan started at 0 + 24 + 5 would choose, and the record of
`world` at offset 32 is never emitted. -/
theorem oversized_reclen_not_resynced :
    (readDirent oversizedBuf 0).d_reclen = 2000
    ∧ (step oversizedBuf 64 64 0).map Prod.fst = some 2000
    ∧ (scan oversizedBuf 64 64 (0 + SIZEOF_DIRENT + strlen oversizedBuf (0 + 19))).map Prod.fst
        = some 32
    ∧ fillEntries oversizedBuf 64 = [recHelloBig.d] := by
  refine ⟨by decide, by decide, by decide, by decide⟩

/-! ## The run -/

theorem fillLoop_data_pos (nread : Nat) (mem : List Nat) (rest : List Fill) (out : List Nat)
    (h : nread ≠ 0) :
    fillLoop (Fill.data nread mem :: rest) out
      = fillLoop rest (out ++ renderAll (fillEntries mem nread)) := by
  obtain ⟨evs, he⟩ := decodeFill_isSome mem nread
  simp [fillLoop, h, he, fillEntries]

theorem fillLoop_exit_success (fills : List Fill) :
    ∀ out, (fillLoop fills out).status = Status.exited 0 ↔
      ∃ pre mem rest, fills = pre ++ Fill.data 0 mem :: rest ∧ Fill.failed ∉ pre := by
  induction fills with
  | nil => intro out; simp [fillLoop]
  | cons f fs ih =>
    intro out
    cases f with
    | failed =>
      simp only [fillLoop, EXIT_FAILURE]
      constructor
      · intro h; exact absurd h (by decide)
      · rintro ⟨pre, mem, rest, h1, h2⟩
        cases pre with
        | nil => simp at h1
        | cons p ps =>
          simp only [List.cons_append, List.cons.injEq] at h1
          exact absurd (by rw [← h1.1]; exact List.mem_cons_self _ _) h2
    | data n mem =>
      by_cases hn : n = 0
      · subst hn
        simp only [fillLoop, if_true, EXIT_SUCCESS, true_iff]
        exact ⟨[], mem, fs, rfl, by simp⟩
      · rw [fillLoop_data_pos _ _ _ _ hn, ih]
        constructor
        · rintro ⟨pre, m, rest, h1, h2⟩
          exact ⟨Fill.data n mem :: pre, m, rest, by simp [h1], by simp [h2]⟩
        · rintro ⟨pre, m, rest, h1, h2⟩
          cases pre with
          | nil =>
            simp only [List.nil_append, List.cons.injEq, Fill.data.injEq] at h1
            exact absurd h1.1.1 hn
          | cons p ps =>
            simp only [List.cons_append, List.cons.injEq] at h1
            exact ⟨ps, m, rest, h1.2, fun h => h2 (List.mem_cons_of_mem _ h)⟩

theorem fillLoop_exit_failure (fills : List Fill) :
    ∀ out, (∃ c, c ≠ 0 ∧ (fillLoop fills out).status = Status.exited c) ↔
      ∃ pre rest, fills = pre ++ Fill.failed :: rest ∧ ∀ mem, Fill.data 0 mem ∉ pre := by
  induction fills with
  | nil => intro out; simp [fillLoop]
  | cons f fs ih =>
    intro out
    cases f with
    | failed =>
      simp only [fillLoop, EXIT_FAILURE]
      constructor
      · intro _; exact ⟨[], fs, rfl, by simp⟩
      · intro _; exact ⟨1, by decide, rfl⟩
    | data n mem =>
      by_cases hn : n = 0
      · subst hn
        simp only [fillLoop, if_true, EXIT_SUCCESS]
        constructor
        · rintro ⟨c, h1, h2⟩
          simp only [Status.exited.injEq] at h2
          exact absurd h2.symm h1
        · rintro ⟨pre, rest, h1, h2⟩
          cases pre with
          | nil => simp at h1
          | cons p ps =>
            simp only [List.cons_append, List.cons.injEq] at h1
            exact absurd (by rw [← h1.1]; exact List.mem_cons_self _ _) (h2 mem)
      · rw [fillLoop_data_pos _ _ _ _ hn, ih]
        constructor
        · rintro ⟨pre, rest, h1, h2⟩
          refine ⟨Fill.data n mem :: pre, rest, by simp [h1], ?_⟩
          intro m hm
          rcases List.mem_cons.1 hm with h | h
          · simp only [Fill.data.injEq] at h
            exact hn h.1.symm
          · exact h2 m h
        · rintro ⟨pre, rest, h1, h2⟩
          cases pre with
          | nil => simp at h1
          | cons p ps =>
            simp only [List.cons_append, List.cons.injEq] at h1
            exact ⟨ps, rest, h1.2, fun m h => h2 m (List.mem_cons_of_mem _ h)⟩

theorem fillLoop_out (fills : List Fill) :
    ∀ out, (fillLoop fills out).out
      = out ++ ((fills.takeWhile Fill.isPositive).map fillOutput).flatten := by
  induction fills with
  | nil => intro out; simp [fillLoop]
  | cons f fs ih =>
    intro out
    cases f with
    | failed => simp [fillLoop, Fill.isPositive]
    | data n mem =>
      by_cases hn : n = 0
      · subst hn; simp [fillLoop, Fill.isPositive]
      · rw [fillLoop_data_pos _ _ _ _ hn, ih]
        simp [Fill.isPositive, hn, fillOutput]

theorem takeWhile_isPositive_failed (pre rest : List Fill)
    (h : ∀ f ∈ pre, f.isPositive = true) :
    (pre ++ Fill.failed :: rest).takeWhile Fill.isPositive = pre := by
  induction pre with
  | nil => simp [Fill.isPositive]
  | cons p ps ih =>
    simp only [List.cons_append, List.takeWhile_cons, h p (List.mem_cons_self _ _), if_true]
    rw [ih (fun f hf => h f (List.mem_cons_of_mem _ hf))]

/-- C7: the run exits with status 0 exactly when `open` succeeded and a fill of length 0 came
before any failed fill; it exits with a nonzero status exactly when `open` failed or a fill
failed before any fill of length 0; and a failed `open` writes nothing. -/
theorem exit_status (openOk : Bool) (fills : List Fill) :
    ((main openOk fills).status = Status.exited 0 ↔
      openOk = true
        ∧ ∃ pre mem rest, fills = pre ++ Fill.data 0 mem :: rest ∧ Fill.failed ∉ pre)
    ∧ ((∃ c, c ≠ 0 ∧ (main openOk fills).status = Status.exited c) ↔
      openOk = false
        ∨ ∃ pre rest, fills = pre ++ Fill.failed :: rest ∧ ∀ mem, Fill.data 0 mem ∉ pre)
    ∧ main false fills = ⟨[], Status.exited EXIT_FAILURE⟩ := by
  cases openOk with
  | false =>
    refine ⟨?_, ?_, rfl⟩
    · simp [main, EXIT_FAILURE]
    · simp only [main, Bool.false_eq_true, if_false, true_or, iff_true]
      exact ⟨1, by decide, rfl⟩
  | true =>
    refine ⟨?_, ?_, rfl⟩
    · simp only [main, if_true, true_and]
      exact fillLoop_exit_success fills []
    · simp only [main, if_true, Bool.true_eq_false, false_or]
      exact fillLoop_exit_failure fills []

/-- C8: the output of a run is the concatenation, in order, of the rendered entries of the
positive-length fills that come before the first fill of length 0 or failed fill, each fill
decoded on its own from cursor 0; in particular, when a fill fails after positive-length
fills, the output is the rendered entries of those fills and the status is the failure
status. -/
theorem output_is_concatenation (fills : List Fill) :
    (main true fills).out = ((fills.takeWhile Fill.isPositive).map fillOutput).flatten
    ∧ ∀ pre rest, (∀ f ∈ pre, f.isPositive = true) →
        main true (pre ++ Fill.failed :: rest)
          = ⟨(pre.map fillOutput).flatten, Status.exited EXIT_FAILURE⟩ := by
  constructor
  · simp [main, fillLoop_out]
  · intro pre rest h
    have h1 : (main true (pre ++ Fill.failed :: rest)).out = (pre.map fillOutput).flatten := by
      simp [main, fillLoop_out, takeWhile_isPositive_failed pre rest h]
    have h2 : ∀ out, (fillLoop (pre ++ Fill.failed :: rest) out).status
        = Status.exited EXIT_FAILURE := by
      induction pre with
      | nil => intro out; rfl
      | cons p ps ih =>
        intro out
        cases p with
        | failed => exact absurd (h _ (List.mem_cons_self _ _)) (by simp [Fill.isPositive])
        | data n mem =>
          have hn : n ≠ 0 := by simpa [Fill.isPositive] using h _ (List.mem_cons_self _ _)
          rw [List.cons_append, fillLoop_data_pos _ _ _ _ hn]
          exact ih (fun f hf => h f (List.mem_cons_of_mem _ hf))
            (by simp [main, fillLoop_out,
              takeWhile_isPositive_failed ps rest (fun f hf => h f (List.mem_cons_of_mem _ hf))]) _
    cases hm : main true (pre ++ Fill.failed :: rest) with
    | mk o st =>
      rw [hm] at h1
      have h3 := h2 []
      simp only [main, if_true] at hm
      rw [hm] at h3
      simp only at h1 h3
      rw [h1, h3]

/-- Witness of C8: a fill holding the record of `report.txt`, then a failed fill.  The
output is the rendering of that one entry and the status is the failure status. -/
theorem output_is_concatenation_witness :
    main true ([Fill.data 32 (encode reportRec)] ++ Fill.failed :: [])
      = ⟨([Fill.data 32 (encode reportRec)].map fillOutput).flatten,
          Status.exited EXIT_FAILURE⟩ :=
  (output_is_concatenation []).2 [Fill.data 32 (encode reportRec)] []
    (by intro f hf; rw [List.mem_singleton] at hf; subst hf; rfl)

/-- C9: if the first fill has length 0, the run writes nothing and exits with status 0,
whatever the buffer holds and whatever fills would follow. -/
theorem empty_directory (mem : List Nat) (rest : List Fill) :
    main true (Fill.data 0 mem :: rest) = ⟨[], Status.exited 0⟩ := rfl

/-! ## Decimal text -/

theorem decimalAux_acc : ∀ fuel n acc, decimalAux fuel n acc = decimalAux fuel n [] ++ acc := by
  intro fuel
  induction fuel with
  | zero => intro n acc; rfl
  | succ fuel ih =>
    intro n acc
    by_cases h : n < 10
    · simp [decimalAux, h]
    · simp only [decimalAux, h, if_false]
      rw [ih (n / 10) ((48 + n % 10) :: acc), ih (n / 10) [48 + n % 10]]
      simp

theorem decVal_append_singleton (s : List Nat) (b : Nat) :
    decVal (s ++ [b]) = 10 * decVal s + (b - 48) := by
  simp [decVal, List.foldl_append]

theorem decVal_decimalAux : ∀ fuel n, n < fuel → decVal (decimalAux fuel n []) = n := by
  intro fuel
  induction fuel with
  | zero => intro n h; omega
  | succ fuel ih =>
    intro n hn
    by_cases h : n < 10
    · simp [decimalAux, h, decVal]
    · simp only [decimalAux, h, if_false]
      rw [decimalAux_acc, decVal_append_singleton, ih (n / 10) (by omega)]
      omega

theorem decVal_decimal (n : Nat) : decVal (decimal n) = n :=
  decVal_decimalAux (n + 1) n (Nat.lt_succ_self n)

theorem decimal_injective {a b : Nat} (h : decimal a = decimal b) : a = b := by
  rw [← decVal_decimal a, ← decVal_decimal b, h]

theorem decimalAux_mem : ∀ fuel n acc b, b ∈ decimalAux fuel n acc → b ∈ acc ∨ 48 ≤ b := by
  intro fuel
  induction fuel with
  | zero => intro n acc b h; exact Or.inl h
  | succ fuel ih =>
    intro n acc b hb
    by_cases h : n < 10
    · simp only [decimalAux, h, if_true, List.mem_cons] at hb
      rcases hb with hb | hb
      · right; omega
      · exact Or.inl hb
    · simp only [decimalAux, h, if_false] at hb
      rcases ih _ _ _ hb with hb | hb
      · rcases List.mem_cons.1 hb with hb | hb
        · right; omega
        · exact Or.inl hb
      · exact Or.inr hb

theorem decimal_ge (n b : Nat) (h : b ∈ decimal n) : 48 ≤ b := by
  rcases decimalAux_mem _ _ _ _ h with h | h
  · simp at h
  · exact h

theorem fmtInt_ne_zero (i : Int) : 0 ∉ fmtInt i := by
  intro h
  unfold fmtInt at h
  split at h
  · rcases List.mem_cons.1 h with h | h
    · omega
    · have := decimal_ge _ _ h; omega
  · have := decimal_ge _ _ h; omega

theorem fmtInt_injective {i j : Int} (h : fmtInt i = fmtInt j) : i = j := by
  unfold fmtInt at h
  by_cases hi : i < 0 <;> by_cases hj : j < 0
  · simp only [hi, hj, if_true, List.cons.injEq, true_and] at h
    have := decimal_injective h
    omega
  · simp only [hi, hj, if_true, if_false] at h
    have := decimal_ge j.natAbs 45 (by rw [← h]; exact List.mem_cons_self _ _)
    omega
  · simp only [hi, hj, if_true, if_false] at h
    have := decimal_ge i.natAbs 45 (by rw [h]; exact List.mem_cons_self _ _)
    omega
  · simp only [hi, hj, if_false] at h
    have := decimal_injective h
    omega

theorem toInt64_injective {a b : Nat} (ha : a < 2 ^ 64) (hb : b < 2 ^ 64)
    (h : toInt64 a = toInt64 b) : a = b := by
  unfold toInt64 at h
  split at h <;> split at h <;> omega

/-! ## Labels -/

theorem typeLabel_eq (t : Nat) : typeLabel t = (fileType t).label := by
  unfold typeLabel fileType
  split_ifs <;> rfl

theorem label_ne_zero (t : Nat) : 0 ∉ padLeft10 (typeLabel t) := by
  rw [typeLabel_eq]
  cases fileType t <;> decide

theorem padded_label_injective (a b : FileType)
    (h : padLeft10 a.label = padLeft10 b.label) : a = b := by
  cases a <;> cases b <;> first | rfl | exact absurd h (by decide)

theorem label_injective {s t : Nat} (h : padLeft10 (typeLabel s) = padLeft10 (typeLabel t)) :
    fileType s = fileType t := by
  rw [typeLabel_eq, typeLabel_eq] at h
  exact padded_label_injective _ _ h

/-! ## Reading the output back -/

theorem split_at_nul : ∀ (a a' r r' : List Nat), 0 ∉ a → 0 ∉ a' →
    a ++ 0 :: r = a' ++ 0 :: r' → a = a' ∧ r = r' := by
  intro a
  induction a with
  | nil =>
    intro a' r r' _ h2 h
    cases a' with
    | nil => simpa using h
    | cons x xs =>
      simp only [List.nil_append, List.cons_append, List.cons.injEq] at h
      exact absurd (by rw [← h.1]; exact List.mem_cons_self _ _) h2
  | cons y ys ih =>
    intro a' r r' h1 h2 h
    cases a' with
    | nil =>
      simp only [List.nil_append, List.cons_append, List.cons.injEq] at h
      exact absurd (by rw [h.1]; exact List.mem_cons_self _ _) h1
    | cons x xs =>
      simp only [List.cons_append, List.cons.injEq] at h
      obtain ⟨e1, e2⟩ := ih xs r r' (fun hm => h1 (List.mem_cons_of_mem _ hm))
        (fun hm => h2 (List.mem_cons_of_mem _ hm)) h.2
      exact ⟨by rw [h.1, e1], e2⟩

theorem render_append (d : Dirent) (R : List Nat) :
    render d ++ R = fmtInt (toInt64 d.d_ino) ++ 0 :: 9 :: (padLeft10 (typeLabel d.d_type)
      ++ 0 :: 9 :: (decimal d.d_reclen ++ 0 :: 9 :: (fmtInt d.d_off
      ++ 0 :: 9 :: (d.d_name ++ 0 :: 10 :: R)))) := by
  simp [render]

theorem decimal_ne_zero (n : Nat) : 0 ∉ decimal n := by
  intro h
  have := decimal_ge _ _ h
  omega

theorem render_append_inj (d1 d2 : Dirent) (R1 R2 : List Nat) (h1 : d1.Decoded)
    (h2 : d2.Decoded) (h : render d1 ++ R1 = render d2 ++ R2) :
    d1.fields = d2.fields ∧ R1 = R2 := by
  rw [render_append, render_append] at h
  obtain ⟨e1, t1⟩ := split_at_nul _ _ _ _ (fmtInt_ne_zero _) (fmtInt_ne_zero _) h
  obtain ⟨e2, t2⟩ := split_at_nul _ _ _ _ (label_ne_zero _) (label_ne_zero _)
    (List.cons.inj t1).2
  obtain ⟨e3, t3⟩ := split_at_nul _ _ _ _ (decimal_ne_zero _) (decimal_ne_zero _)
    (List.cons.inj t2).2
  obtain ⟨e4, t4⟩ := split_at_nul _ _ _ _ (fmtInt_ne_zero _) (fmtInt_ne_zero _)
    (List.cons.inj t3).2
  obtain ⟨e5, t5⟩ := split_at_nul _ _ _ _ h1.2 h2.2 (List.cons.inj t4).2
  refine ⟨?_, (List.cons.inj t5).2⟩
  simp only [Dirent.fields, Prod.mk.injEq]
  exact ⟨toInt64_injective h1.1 h2.1 (fmtInt_injective e1), label_injective e2,
    decimal_injective e3, fmtInt_injective e4, e5⟩

theorem renderAll_injective : ∀ es1 es2 : List Dirent, (∀ e ∈ es1, e.Decoded) →
    (∀ e ∈ es2, e.Decoded) → renderAll es1 = renderAll es2 →
    es1.map Dirent.fields = es2.map Dirent.fields := by
  intro es1
  induction es1 with
  | nil =>
    intro es2 _ _ h
    cases es2 with
    | nil => rfl
    | cons e es =>
      have := congrArg List.length h
      simp only [renderAll, render, List.length_append, List.length_cons, List.length_nil]
        at this
      omega
  | cons d ds ih =>
    intro es2 h1 h2 h
    cases es2 with
    | nil =>
      have := congrArg List.length h
      simp only [renderAll, render, List.length_append, List.length_cons, List.length_nil]
        at this
      omega
    | cons e es =>
      obtain ⟨hf, ht⟩ := render_append_inj d e _ _ (h1 d (List.mem_cons_self _ _))
        (h2 e (List.mem_cons_self _ _)) h
      simp only [List.map_cons, hf, List.cons.injEq, true_and]
      exact ih es (fun x hx => h1 x (List.mem_cons_of_mem _ hx))
        (fun x hx => h2 x (List.mem_cons_of_mem _ hx)) ht

/-! ## Entries read from memory -/

theorem byteAt_lt (mem : List Nat) (i : Nat) : byteAt mem i < 256 :=
  Nat.mod_lt _ (by decide)

theorem loadLE_lt (mem : List Nat) (k : Nat) : ∀ i, loadLE mem i k < 256 ^ k := by
  induction k with
  | zero => intro i; simp [loadLE]
  | succ k ih =>
    intro i
    have h1 := byteAt_lt mem i
    have h2 := ih (i + 1)
    simp only [loadLE, pow_succ]
    omega

theorem cstring_ne_zero (mem : List Nat) (i : Nat) : 0 ∉ cstring mem i := by
  intro h
  have := List.mem_takeWhile_imp h
  simp at this

theorem readDirent_decoded (mem : List Nat) (bpos : Nat) : (readDirent mem bpos).Decoded :=
  ⟨by simpa using loadLE_lt mem 8 bpos, cstring_ne_zero mem (bpos + 19)⟩

theorem step_entries (mem : List Nat) (nread fuel bpos : Nat) (r : Nat × List Event)
    (h : step mem nread fuel bpos = some r) :
    entries r.2 = [readDirent mem bpos] ∧ offsets r.2 = [bpos] := by
  by_cases h0 : (readDirent mem bpos).d_reclen = 0
  · cases hs : scan mem nread fuel (bpos + SIZEOF_DIRENT + strlen mem (bpos + 19)) with
    | none => simp [step, h0, hs] at h
    | some r' =>
      have := scan_entries _ _ _ _ _ hs
      simp [step, h0, hs] at h
      subst h
      simp [this.1, this.2]
  · simp [step, h0] at h
    subst h
    simp

theorem decodeLoop_entries_decoded (mem : List Nat) (nread : Nat) :
    ∀ fuel bpos evs, decodeLoop mem nread fuel bpos = some evs →
      ∀ e ∈ entries evs, e.Decoded := by
  intro fuel
  induction fuel with
  | zero =>
    intro bpos evs h
    by_cases hb : bpos < nread
    · simp [decodeLoop, hb] at h
    · simp [decodeLoop, hb] at h; subst h; simp
  | succ fuel ih =>
    intro bpos evs h
    by_cases hb : bpos < nread
    · cases hs : step mem nread fuel bpos with
      | none => simp [decodeLoop, hb, hs] at h
      | some r =>
        obtain ⟨b, ev⟩ := r
        cases hd : decodeLoop mem nread fuel b with
        | none => simp [decodeLoop, hb, hs, hd] at h
        | some rest =>
          simp [decodeLoop, hb, hs, hd] at h
          subst h
          have he := (step_entries _ _ _ _ _ hs).1
          simp only at he
          intro e hm
          rw [entries_append, he] at hm
          rcases List.mem_append.1 hm with hm | hm
          · rw [List.mem_singleton] at hm
            subst hm
            exact readDirent_decoded _ _
          · exact ih _ _ hd e hm
    · simp [decodeLoop, hb] at h; subst h; simp

theorem fillEntries_decoded (mem : List Nat) (nread : Nat) :
    ∀ e ∈ fillEntries mem nread, e.Decoded := by
  unfold fillEntries
  cases h : decodeFill mem nread with
  | none => simp
  | some evs => exact decodeLoop_entries_decoded mem nread _ _ _ h

/-- C10: the rendering is unambiguous.  Each entry is written as inode text, NUL TAB, padded
type label, NUL TAB, record-length text, NUL TAB, next-cookie text, NUL TAB, name, NUL LF;
no field text of an entry read from memory contains a NUL; and two sequences of entries read
from memory (64-bit inodes, names without NUL) that render to the same bytes have the same
length and, position by position, the same inode, file type, record length, next cookie and
name. -/
theorem render_unambiguous :
    (∀ d : Dirent, render d = fmtInt (toInt64 d.d_ino) ++ [0, 9]
        ++ padLeft10 (typeLabel d.d_type) ++ [0, 9] ++ decimal d.d_reclen ++ [0, 9]
        ++ fmtInt d.d_off ++ [0, 9] ++ d.d_name ++ [0, 10])
    ∧ (∀ mem nread, ∀ e ∈ fillEntries mem nread, e.Decoded
        ∧ 0 ∉ fmtInt (toInt64 e.d_ino) ∧ 0 ∉ padLeft10 (typeLabel e.d_type)
        ∧ 0 ∉ decimal e.d_reclen ∧ 0 ∉ fmtInt e.d_off ∧ 0 ∉ e.d_name)
    ∧ (∀ es1 es2 : List Dirent, (∀ e ∈ es1, e.Decoded) → (∀ e ∈ es2, e.Decoded) →
        renderAll es1 = renderAll es2 →
        es1.length = es2.length ∧ es1.map Dirent.fields = es2.map Dirent.fields) := by
  refine ⟨fun _ => rfl, ?_, ?_⟩
  · intro mem nread e he
    have hd := fillEntries_decoded mem nread e he
    exact ⟨hd, fmtInt_ne_zero _, label_ne_zero _, decimal_ne_zero _, fmtInt_ne_zero _, hd.2⟩
  · intro es1 es2 h1 h2 h
    have hm := renderAll_injective es1 es2 h1 h2 h
    exact ⟨by simpa using congrArg List.length hm, hm⟩

/-- Witness of C10: two entries that differ only in an unrecognised type tag render to the
same bytes, and their fields agree, the file type being `Unknown` for both. -/
theorem render_unambiguous_witness :
    renderAll [reportTag0] = renderAll [reportTag3]
    ∧ [reportTag0].length = [reportTag3].length
    ∧ [reportTag0].map Dirent.fields = [reportTag3].map Dirent.fields :=
  have h : renderAll [reportTag0] = renderAll [reportTag3] := by decide
  ⟨h, render_unambiguous.2.2 [reportTag0] [reportTag3]
    (by intro e he; rw [List.mem_singleton] at he; subst he; exact ⟨by decide, by decide⟩)
    (by intro e he; rw [List.mem_singleton] at he; subst he; exact ⟨by decide, by decide⟩) h⟩

/-! ## The cursor sequence of a fill -/

theorem scan_stops (mem : List Nat) (nread : Nat) :
    ∀ fuel a r, scan mem nread fuel a = some r →
      a ≤ r.1 ∧ (∀ s, a ≤ s → s < r.1 → s < nread → candidateOk mem s = false)
        ∧ (r.1 < nread → candidateOk mem r.1 = true) := by
  intro fuel
  induction fuel with
  | zero =>
    intro a r h
    by_cases hb : a < nread
    · simp [scan, hb] at h
    · simp [scan, hb] at h; subst h
      exact ⟨Nat.le_refl _, fun s h1 h2 => by omega, fun h => absurd h hb⟩
  | succ fuel ih =>
    intro a r h
    by_cases hb : a < nread
    · cases hok : candidateOk mem a with
      | true =>
        rw [scan_accept mem nread fuel a hb hok] at h
        simp only [Option.some.injEq] at h
        subst h
        exact ⟨Nat.le_refl _, fun s h1 h2 => by omega, fun _ => hok⟩
      | false =>
        obtain ⟨ev, he⟩ := scan_reject mem nread fuel a hb hok
        rw [he] at h
        cases hs : scan mem nread fuel (a + 1) with
        | none => rw [hs] at h; simp at h
        | some r' =>
          rw [hs] at h
          simp only [Option.map_some', Option.some.injEq] at h
          subst h
          obtain ⟨h1, h2, h3⟩ := ih _ _ hs
          refine ⟨by simp only; omega, ?_, h3⟩
          intro s hs1 hs2 hs3
          by_cases hsa : s = a
          · subst hsa; exact hok
          · exact h2 s (by omega) hs2 hs3
    · simp [scan, hb] at h; subst h
      exact ⟨Nat.le_refl _, fun s h1 h2 => by omega, fun h => absurd h hb⟩

theorem step_follows (mem : List Nat) (nread fuel a : Nat) (r : Nat × List Event)
    (h : step mem nread fuel a = some r) (hr : r.1 < nread) : Follows mem nread a r.1 := by
  by_cases h0 : (readDirent mem a).d_reclen = 0
  · cases hs : scan mem nread fuel (a + SIZEOF_DIRENT + strlen mem (a + 19)) with
    | none => simp [step, h0, hs] at h
    | some r' =>
      simp [step, h0, hs] at h
      subst h
      obtain ⟨h1, h2, h3⟩ := scan_stops _ _ _ _ _ hs
      exact ⟨hr, Or.inr ⟨h0, h1, h3 hr, fun s hs1 hs2 => h2 s hs1 hs2 (by simp only at hr; omega)⟩⟩
  · simp [step, h0] at h
    subst h
    exact ⟨hr, Or.inl ⟨h0, rfl⟩⟩

theorem Follows.lt {mem : List Nat} {nread a b : Nat} (h : Follows mem nread a b) : a < b := by
  obtain ⟨_, h | h⟩ := h
  · omega
  · have := h.2.1; simp only [SIZEOF_DIRENT] at this; omega

theorem decodeLoop_trace (mem : List Nat) (nread : Nat) :
    ∀ fuel bpos evs, decodeLoop mem nread fuel bpos = some evs →
      offsets evs = cursors mem nread fuel bpos
        ∧ entries evs = (offsets evs).map (readDirent mem)
        ∧ List.Chain' (Follows mem nread) (offsets evs)
        ∧ (∀ o ∈ offsets evs, o < nread)
        ∧ (offsets evs).head? = (if bpos < nread then some bpos else none)
        ∧ (offsets evs).length ≤ nread - bpos := by
  intro fuel
  induction fuel with
  | zero =>
    intro bpos evs h
    by_cases hb : bpos < nread
    · simp [decodeLoop, hb] at h
    · simp [decodeLoop, hb] at h; subst h; simp [cursors, hb]
  | succ fuel ih =>
    intro bpos evs h
    by_cases hb : bpos < nread
    · cases hs : step mem nread fuel bpos with
      | none => simp [decodeLoop, hb, hs] at h
      | some r =>
        obtain ⟨b, ev⟩ := r
        cases hd : decodeLoop mem nread fuel b with
        | none => simp [decodeLoop, hb, hs, hd] at h
        | some rest =>
          simp [decodeLoop, hb, hs, hd] at h
          subst h
          obtain ⟨he, ho⟩ := step_entries _ _ _ _ _ hs
          simp only at he ho
          obtain ⟨i1, i2, i3, i4, i5, i6⟩ := ih _ _ hd
          have hlt := step_lt _ _ _ _ _ hs
          simp only at hlt
          have hoff : offsets (ev ++ rest) = bpos :: offsets rest := by
            rw [offsets_append, ho]; rfl
          rw [hoff]
          refine ⟨?_, ?_, ?_, ?_, ?_, ?_⟩
          · simp [cursors, hb, hs, i1]
          · rw [entries_append, he, i2]; rfl
          · refine List.Chain'.cons' i3 ?_
            intro y hy
            rw [i5] at hy
            by_cases hbn : b < nread
            · simp only [hbn, if_true, Option.mem_def, Option.some.injEq] at hy
              subst hy
              exact step_follows _ _ _ _ _ hs hbn
            · simp [hbn] at hy
          · intro o ho'
            rcases List.mem_cons.1 ho' with h1 | h1
            · omega
            · exact i4 o h1
          · simp [hb]
          · simp only [List.length_cons]
            by_cases hbn : b < nread
            · omega
            · have : offsets rest = [] := by
                cases hr : offsets rest with
                | nil => rfl
                | cons x xs =>
                  rw [hr] at i5
                  simp [hbn] at i5
              rw [this]; simp; omega
    · simp [decodeLoop, hb] at h; subst h; simp [cursors, hb]

theorem knownType_iff (t : Nat) :
    knownType t = true ↔ t = 8 ∨ t = 4 ∨ t = 1 ∨ t = 12 ∨ t = 10 ∨ t = 6 ∨ t = 2 := by
  simp [knownType, DT_REG, DT_DIR, DT_FIFO, DT_SOCK, DT_LNK, DT_BLK, DT_CHR, or_assoc]

theorem knownType_label (t : Nat) (h : knownType t = true) :
    typeLabel t ≠ [63, 63, 63] ∧ fileType t ≠ FileType.Unknown := by
  rcases (knownType_iff t).1 h with h | h | h | h | h | h | h <;> subst h <;>
    exact ⟨by decide, by decide⟩

/-- C11: the label of a type tag is "regular" for 8, "directory" for 4, "FIFO" for 1,
"socket" for 12, "symlink" for 10, "block dev" for 6, "char dev" for 2 and "???" for every
other value; the eight labels are pairwise distinct; and every label is written followed by
spaces up to exactly 10 bytes. -/
theorem type_labels :
    (DT_REG = 8 ∧ DT_DIR = 4 ∧ DT_FIFO = 1 ∧ DT_SOCK = 12 ∧ DT_LNK = 10 ∧ DT_BLK = 6
        ∧ DT_CHR = 2)
    ∧ (∀ t : Nat, typeLabel t =
        if t = 8 then [114, 101, 103, 117, 108, 97, 114]
        else if t = 4 then [100, 105, 114, 101, 99, 116, 111, 114, 121]
        else if t = 1 then [70, 73, 70, 79]
        else if t = 12 then [115, 111, 99, 107, 101, 116]
        else if t = 10 then [115, 121, 109, 108, 105, 110, 107]
        else if t = 6 then [98, 108, 111, 99, 107, 32, 100, 101, 118]
        else if t = 2 then [99, 104, 97, 114, 32, 100, 101, 118]
        else [63, 63, 63])
    ∧ List.Pairwise (fun a b : List Nat => a ≠ b)
        [typeLabel 8, typeLabel 4, typeLabel 1, typeLabel 12, typeLabel 10, typeLabel 6,
          typeLabel 2, typeLabel 0]
    ∧ (∀ t : Nat, (padLeft10 (typeLabel t)).length = 10
        ∧ padLeft10 (typeLabel t)
            = typeLabel t ++ List.replicate (10 - (typeLabel t).length) 32) := by
  refine ⟨⟨rfl, rfl, rfl, rfl, rfl, rfl, rfl⟩, fun t => rfl, by decide, ?_⟩
  intro t
  refine ⟨?_, rfl⟩
  rw [typeLabel_eq]
  cases fileType t <;> rfl

/-- C12: at a cursor below the fill length whose record length `r` is nonzero and at most
what is left of the fill, one pass emits exactly the entry read there and moves the cursor to
`bpos + r`; its reads are those of the entry and of the length test, none of a scan. -/
theorem fast_path_step (mem : List Nat) (nread fuel bpos : Nat) (hb : bpos < nread)
    (h0 : (readDirent mem bpos).d_reclen ≠ 0)
    (hle : (readDirent mem bpos).d_reclen ≤ nread - bpos) :
    step mem nread fuel bpos
        = some (bpos + (readDirent mem bpos).d_reclen, emitEvents mem bpos ++ loads (bpos + 16) 2)
    ∧ entries (emitEvents mem bpos ++ loads (bpos + 16) 2) = [readDirent mem bpos]
    ∧ offsets (emitEvents mem bpos ++ loads (bpos + 16) 2) = [bpos]
    ∧ bpos + (readDirent mem bpos).d_reclen ≤ nread
    ∧ decodeLoop mem nread (fuel + 1) bpos
        = (decodeLoop mem nread fuel (bpos + (readDirent mem bpos).d_reclen)).map
            fun rest => (emitEvents mem bpos ++ loads (bpos + 16) 2) ++ rest := by
  refine ⟨by simp [step, h0], by simp, by simp, by omega, decodeLoop_fast _ _ _ _ hb h0⟩

/-- Witness of C12: the record of `report.txt` at cursor 0 of a 32-byte fill. -/
theorem fast_path_step_witness :
    (readDirent (encode reportRec) 0).d_reclen = 32
    ∧ step (encode reportRec) 32 31 0
        = some (0 + (readDirent (encode reportRec) 0).d_reclen,
            emitEvents (encode reportRec) 0 ++ loads (0 + 16) 2) :=
  ⟨by decide, (fast_path_step (encode reportRec) 32 31 0 (by decide) (by decide) (by decide)).1⟩

theorem takeWhile_ne_zero_spec (l : List Nat) :
    (∀ j, j < (l.takeWhile (· ≠ 0)).length → l.getD j 0 ≠ 0)
      ∧ l.getD (l.takeWhile (· ≠ 0)).length 0 = 0 := by
  induction l with
  | nil => simp
  | cons a l ih =>
    by_cases ha : a = 0
    · subst ha; simp
    · have htw : (a :: l).takeWhile (· ≠ 0) = a :: l.takeWhile (· ≠ 0) := by
        simp [List.takeWhile_cons, ha]
      rw [htw]
      refine ⟨?_, ?_⟩
      · intro j hj
        cases j with
        | zero => simpa using ha
        | succ j =>
          simp only [List.length_cons, Nat.add_lt_add_iff_right] at hj
          simpa using ih.1 j hj
      · simpa using ih.2

theorem getD_map_drop (mem : List Nat) (i j : Nat) :
    ((mem.drop i).map (· % 256)).getD j 0 = byteAt mem (i + j) := by
  simp only [byteAt, List.getD_eq_getElem?_getD, List.getElem?_map, List.getElem?_drop]
  cases mem[i + j]? <;> simp

theorem strlen_spec (mem : List Nat) (i : Nat) :
    (∀ j, j < strlen mem i → byteAt mem (i + j) ≠ 0) ∧ byteAt mem (i + strlen mem i) = 0 := by
  have h := takeWhile_ne_zero_spec ((mem.drop i).map (· % 256))
  simp only [getD_map_drop] at h
  exact h

theorem strlen_unique (mem : List Nat) (i L : Nat) (h1 : ∀ j, j < L → byteAt mem (i + j) ≠ 0)
    (h2 : byteAt mem (i + L) = 0) : strlen mem i = L := by
  obtain ⟨s1, s2⟩ := strlen_spec mem i
  rcases Nat.lt_trichotomy (strlen mem i) L with h | h | h
  · exact absurd s2 (h1 _ h)
  · exact h
  · exact absurd h2 (s1 _ h)

theorem candidateOk_iff (mem : List Nat) (s : Nat) :
    candidateOk mem s = true ↔
      byteAt mem (s + 16) + 256 * byteAt mem (s + 17) ≤ 1024
        ∧ (byteAt mem (s + 18) = 8 ∨ byteAt mem (s + 18) = 4 ∨ byteAt mem (s + 18) = 1
            ∨ byteAt mem (s + 18) = 12 ∨ byteAt mem (s + 18) = 10 ∨ byteAt mem (s + 18) = 6
            ∨ byteAt mem (s + 18) = 2) := by
  simp only [candidateOk, Bool.and_eq_true, decide_eq_true_eq, knownType_iff, loadLE, BUF_SIZE,
    Nat.mul_zero, Nat.add_zero, Nat.add_assoc]

/-- C13: at a cursor below the fill length whose record length is 0, let `L` be the length of
the name, that is the bytes from `bpos + 19` on are not NUL for `L` bytes and the next one is
NUL.  With 24 the size of the header struct, one pass emits the entry and leaves the cursor
at `c >= bpos + 24 + L`: if some offset `s` with `bpos + 24 + L <= s < nread` has a 16-bit
length (bytes `s + 16`, `s + 17`, little endian) of at most 1024 and a type tag (byte
`s + 18`) among 8, 4, 1, 12, 10, 6, 2, then `c` is the smallest such offset; if none has, `c`
is at or past the fill length and the entry is the last of the fill. -/
theorem resync_next_cursor (mem : List Nat) (nread fuel bpos L : Nat) (hb : bpos < nread)
    (h0 : byteAt mem (bpos + 16) + 256 * byteAt mem (bpos + 17) = 0)
    (hf : nread - bpos ≤ fuel + 1)
    (hL1 : ∀ j, j < L → byteAt mem (bpos + 19 + j) ≠ 0)
    (hL2 : byteAt mem (bpos + 19 + L) = 0) :
    SIZEOF_DIRENT = 24 ∧
    ∃ c ev, step mem nread fuel bpos = some (c, ev)
      ∧ entries ev = [readDirent mem bpos]
      ∧ offsets ev = [bpos]
      ∧ bpos + 24 + L ≤ c
      ∧ (∀ s, bpos + 24 + L ≤ s → s < nread →
          byteAt mem (s + 16) + 256 * byteAt mem (s + 17) ≤ 1024 →
          (byteAt mem (s + 18) = 8 ∨ byteAt mem (s + 18) = 4 ∨ byteAt mem (s + 18) = 1
            ∨ byteAt mem (s + 18) = 12 ∨ byteAt mem (s + 18) = 10 ∨ byteAt mem (s + 18) = 6
            ∨ byteAt mem (s + 18) = 2) →
          c ≤ s ∧ c < nread
            ∧ byteAt mem (c + 16) + 256 * byteAt mem (c + 17) ≤ 1024
            ∧ (byteAt mem (c + 18) = 8 ∨ byteAt mem (c + 18) = 4 ∨ byteAt mem (c + 18) = 1
              ∨ byteAt mem (c + 18) = 12 ∨ byteAt mem (c + 18) = 10
              ∨ byteAt mem (c + 18) = 6 ∨ byteAt mem (c + 18) = 2))
      ∧ ((∀ s, bpos + 24 + L ≤ s → s < nread →
            ¬ (byteAt mem (s + 16) + 256 * byteAt mem (s + 17) ≤ 1024
              ∧ (byteAt mem (s + 18) = 8 ∨ byteAt mem (s + 18) = 4 ∨ byteAt mem (s + 18) = 1
                ∨ byteAt mem (s + 18) = 12 ∨ byteAt mem (s + 18) = 10
                ∨ byteAt mem (s + 18) = 6 ∨ byteAt mem (s + 18) = 2))) →
          nread ≤ c ∧ decodeLoop mem nread (fuel + 1) bpos = some ev) := by
  refine ⟨rfl, ?_⟩
  have hlen : strlen mem (bpos + 19) = L := strlen_unique mem (bpos + 19) L hL1 hL2
  have h0' : (readDirent mem bpos).d_reclen = 0 := by
    simp only [readDirent, loadLE, Nat.mul_zero, Nat.add_zero, Nat.add_assoc]
    exact h0
  obtain ⟨r, hr⟩ := scan_isSome mem nread fuel (bpos + SIZEOF_DIRENT + strlen mem (bpos + 19))
    (by simp only [SIZEOF_DIRENT]; omega)
  obtain ⟨c, sev⟩ := r
  obtain ⟨h1, h2, h3⟩ := scan_stops _ _ _ _ _ hr
  simp only [SIZEOF_DIRENT, hlen] at h1 h2 hr
  simp only at h3
  have hstep : step mem nread fuel bpos = some (c, emitEvents mem bpos ++ loads (bpos + 16) 2
      ++ loads (bpos + 19) (strlen mem (bpos + 19) + 1) ++ sev) := by
    simp [step, h0', SIZEOF_DIRENT, hlen, hr]
  have hse := scan_entries _ _ _ _ _ hr
  have hent : entries (emitEvents mem bpos ++ loads (bpos + 16) 2
      ++ loads (bpos + 19) (strlen mem (bpos + 19) + 1) ++ sev) = [readDirent mem bpos] := by
    simp [hse.1]
  have hoff : offsets (emitEvents mem bpos ++ loads (bpos + 16) 2
      ++ loads (bpos + 19) (strlen mem (bpos + 19) + 1) ++ sev) = [bpos] := by
    simp [hse.2]
  refine ⟨c, _, hstep, hent, hoff, h1, ?_, ?_⟩
  · intro s hs1 hs2 hs3 hs4
    have hok : candidateOk mem s = true := (candidateOk_iff mem s).2 ⟨hs3, hs4⟩
    have hcs : c ≤ s := by
      by_contra hlt
      have := h2 s hs1 (by omega) hs2
      rw [this] at hok
      exact absurd hok (by decide)
    have hc : c < nread := by omega
    have := (candidateOk_iff mem c).1 (h3 hc)
    exact ⟨hcs, hc, this.1, this.2⟩
  · intro hnone
    have hc : nread ≤ c := by
      by_contra hlt
      have hc : c < nread := by omega
      exact hnone c h1 hc ((candidateOk_iff mem c).1 (h3 hc))
    refine ⟨hc, ?_⟩
    simp [decodeLoop, hb, hstep, decodeLoop_of_ge _ _ _ _ hc]

/-- Witness of C13: a 88-byte fill whose first record, at cursor 0, has its length zeroed and
a 30-byte name holding the bytes 1, 1, 8 at name positions 21-23, followed by the record of
`world` at offset 56.  Offset 24 would pass the test (length 257, tag 8), but the scan
starts at 0 + 24 + 30 = 54 and stops at 56. -/
theorem resync_next_cursor_witness :
    strlen longNameBuf 19 = 30
    ∧ candidateOk longNameBuf 24 = true
    ∧ (step longNameBuf 88 87 0).map Prod.fst = some 56
    ∧ SIZEOF_DIRENT = 24 ∧
    ∃ c ev, step longNameBuf 88 87 0 = some (c, ev)
      ∧ entries ev = [readDirent longNameBuf 0]
      ∧ offsets ev = [0]
      ∧ 0 + 24 + 30 ≤ c
      ∧ (∀ s, 0 + 24 + 30 ≤ s → s < 88 →
          byteAt longNameBuf (s + 16) + 256 * byteAt longNameBuf (s + 17) ≤ 1024 →
          (byteAt longNameBuf (s + 18) = 8 ∨ byteAt longNameBuf (s + 18) = 4
            ∨ byteAt longNameBuf (s + 18) = 1 ∨ byteAt longNameBuf (s + 18) = 12
            ∨ byteAt longNameBuf (s + 18) = 10 ∨ byteAt longNameBuf (s + 18) = 6
            ∨ byteAt longNameBuf (s + 18) = 2) →
          c ≤ s ∧ c < 88
            ∧ byteAt longNameBuf (c + 16) + 256 * byteAt longNameBuf (c + 17) ≤ 1024
            ∧ (byteAt longNameBuf (c + 18) = 8 ∨ byteAt longNameBuf (c + 18) = 4
              ∨ byteAt longNameBuf (c + 18) = 1 ∨ byteAt longNameBuf (c + 18) = 12
              ∨ byteAt longNameBuf (c + 18) = 10 ∨ byteAt longNameBuf (c + 18) = 6
              ∨ byteAt longNameBuf (c + 18) = 2))
      ∧ ((∀ s, 0 + 24 + 30 ≤ s → s < 88 →
            ¬ (byteAt longNameBuf (s + 16) + 256 * byteAt longNameBuf (s + 17) ≤ 1024
              ∧ (byteAt longNameBuf (s + 18) = 8 ∨ byteAt longNameBuf (s + 18) = 4
                ∨ byteAt longNameBuf (s + 18) = 1 ∨ byteAt longNameBuf (s + 18) = 12
                ∨ byteAt longNameBuf (s + 18) = 10 ∨ byteAt longNameBuf (s + 18) = 6
                ∨ byteAt longNameBuf (s + 18) = 2))) →
          88 ≤ c ∧ decodeLoop longNameBuf 88 (87 + 1) 0 = some ev) :=
  ⟨by decide, by decide, by decide,
    resync_next_cursor longNameBuf 88 87 0 30 (by decide) (by decide) (by decide)
      (by decide) (by decide)⟩

/-- C14: no visited cursor goes without its entry.  Decoding a fill returns a trace whose
emission offsets are exactly the cursors the loop visits (0 first when the fill is not empty,
then each cursor reached from the one before by the declared length or by the scan), and
the entries are, in order, the fields read at those cursors, whatever their record length;
so there are as many entries as visited cursors. -/
theorem every_cursor_emits (mem : List Nat) (n : Nat) :
    ∃ evs, decodeFill mem n = some evs
      ∧ offsets evs = cursors mem n n 0
      ∧ entries evs = (cursors mem n n 0).map (readDirent mem)
      ∧ (entries evs).length = (cursors mem n n 0).length
      ∧ (cursors mem n n 0).head? = (if 0 < n then some 0 else none)
      ∧ List.Chain' (Follows mem n) (cursors mem n n 0) := by
  obtain ⟨evs, he⟩ := decodeFill_isSome mem n
  obtain ⟨h1, h2, h3, _, h5, _⟩ := decodeLoop_trace mem n n 0 evs he
  rw [h1] at h2 h3 h5
  exact ⟨evs, he, h1, h2, by rw [h2, List.length_map], h5, h3⟩

/-- C15, at a failing input: a 32-byte fill holding one record whose inode is 2^63.  The
entry carries the inode 9223372036854775808, but the inode field written is the text
`-9223372036854775808` (then NUL), not the decimal text of the unsigned value. -/
theorem high_inode_rendered_negative :
    (fillEntries (encode recHighIno) 32).map Dirent.d_ino = [9223372036854775808]
    ∧ (renderAll (fillEntries (encode recHighIno) 32)).take 21
        = [45, 57, 50, 50, 51, 51, 55, 50, 48, 51, 54, 56, 53, 52, 55, 55, 53, 56, 48, 56, 0]
    ∧ decimal 9223372036854775808
        = [57, 50, 50, 51, 51, 55, 50, 48, 51, 54, 56, 53, 52, 55, 55, 53, 56, 48, 56] := by
  refine ⟨by decide, by decide, by decide⟩

/-- C16: resynchronization can stop at an offset that is not the start of a record.  In the
64-byte fill made of `hello` with its length zeroed and the valid record of `world` whose next
cookie has top byte 8, the scan started at 29 stops at 29 at once (the bytes it reads as
length and type are bytes 5-7 of that cookie), offset 29 is not the start of either record,
and an entry is emitted from it. -/
theorem resync_false_positive :
    ∃ (r : Rec) (recs2 : List Rec) (s : Nat), r.Valid ∧ (∀ x ∈ recs2, x.Valid)
      ∧ (readDirent (encode (zeroed r) ++ encodeAll recs2) 0).d_reclen = 0
      ∧ (step (encode (zeroed r) ++ encodeAll recs2) (encodeAll (r :: recs2)).length
            (encodeAll (r :: recs2)).length 0).map Prod.fst = some s
      ∧ candidateOk (encode (zeroed r) ++ encodeAll recs2) s = true
      ∧ s ∉ starts 0 (r :: recs2)
      ∧ s ∈ fillOffsets (encode (zeroed r) ++ encodeAll recs2) (encodeAll (r :: recs2)).length :=
  ⟨recHello, [recCookie], 29, recHello_valid,
    (by
      intro x hx
      rw [List.mem_singleton] at hx
      subst hx
      exact ⟨⟨by decide, by decide, by decide, by decide, by decide, by decide⟩, by decide⟩),
    by decide, by decide, by decide, by decide, by decide⟩

/-- C17: in the trace of a fill, every entry emitted at an offset that follows an entry of
record length 0 (an offset chosen by the scan) has one of the seven recognised type tags, so
its label is not "???", and a record length of at most 1024.  And a candidate below the fill
length with record length 0 and a recognised type tag stops the scan; the pass at that cursor
emits its entry and starts a new scan 24 + strlen further. -/
theorem resync_entries_recognised (mem : List Nat) (n : Nat) :
    (∃ evs, decodeFill mem n = some evs
      ∧ entries evs = (offsets evs).map (readDirent mem)
      ∧ List.Chain' (fun a b => (readDirent mem a).d_reclen = 0 →
          knownType (readDirent mem b).d_type = true
            ∧ typeLabel (readDirent mem b).d_type ≠ [63, 63, 63]
            ∧ fileType (readDirent mem b).d_type ≠ FileType.Unknown
            ∧ (readDirent mem b).d_reclen ≤ 1024) (offsets evs))
    ∧ (∀ fuel s, s < n → (readDirent mem s).d_reclen = 0 →
        knownType (readDirent mem s).d_type = true →
        scan mem n (fuel + 1) s = some (s, loads (s + 16) 2 ++ loads (s + 18) 1)
          ∧ ∃ ev, entries ev = [readDirent mem s]
              ∧ step mem n fuel s
                = (scan mem n fuel (s + 24 + strlen mem (s + 19))).map
                    fun r => (r.1, ev ++ r.2)) := by
  constructor
  · obtain ⟨evs, he⟩ := decodeFill_isSome mem n
    obtain ⟨_, h2, h3, _, _, _⟩ := decodeLoop_trace mem n n 0 evs he
    refine ⟨evs, he, h2, h3.imp ?_⟩
    intro a b hab h0
    obtain ⟨_, h | h⟩ := hab
    · exact absurd h0 h.1
    · have hok := h.2.2.1
      simp only [candidateOk, Bool.and_eq_true, decide_eq_true_eq, BUF_SIZE] at hok
      have hk : knownType (readDirent mem b).d_type = true := hok.2
      exact ⟨hk, (knownType_label _ hk).1, (knownType_label _ hk).2, hok.1⟩
  · intro fuel s hs h0 hk
    refine ⟨scan_accept mem n fuel s hs ?_, ?_⟩
    · have h0' : loadLE mem (s + 16) 2 = 0 := h0
      have hk' : knownType (byteAt mem (s + 18)) = true := hk
      simp [candidateOk, h0', hk']
    · refine ⟨emitEvents mem s ++ loads (s + 16) 2 ++ loads (s + 19) (strlen mem (s + 19) + 1),
        by simp, ?_⟩
      simp [step, h0, SIZEOF_DIRENT]

/-- Witness of C17: in the fill with the hash cookie, the candidate at offset 29 has record
length 0 and type tag 8; it stops the scan. -/
theorem resync_entries_recognised_witness :
    (readDirent cookieBuf 29).d_reclen = 0
    ∧ scan cookieBuf 64 (34 + 1) 29 = some (29, loads (29 + 16) 2 ++ loads (29 + 18) 1) :=
  ⟨by decide,
    ((resync_entries_recognised cookieBuf 64).2 34 29 (by decide) (by decide) (by decide)).1⟩

/-- C18: in the trace of a fill of `n` bytes, the offsets at which entries are emitted are
strictly increasing, start at 0 when there is any, and are all below `n`; the offset after an
entry of record length 0 is at least 24 further; and at most `n` entries are emitted. -/
theorem offsets_increasing (mem : List Nat) (n : Nat) :
    ∃ evs, decodeFill mem n = some evs
      ∧ List.Chain' (fun a b => a < b) (offsets evs)
      ∧ (offsets evs).head? = (if 0 < n then some 0 else none)
      ∧ (∀ o ∈ offsets evs, o < n)
      ∧ List.Chain' (fun a b => (readDirent mem a).d_reclen = 0 → a + 24 ≤ b) (offsets evs)
      ∧ (entries evs).length = (offsets evs).length
      ∧ (entries evs).length ≤ n := by
  obtain ⟨evs, he⟩ := decodeFill_isSome mem n
  obtain ⟨_, h2, h3, h4, h5, h6⟩ := decodeLoop_trace mem n n 0 evs he
  have hlen : (entries evs).length = (offsets evs).length := by rw [h2, List.length_map]
  refine ⟨evs, he, h3.imp (fun a b h => h.lt), h5, h4, h3.imp ?_, hlen, by omega⟩
  intro a b hab h0
  obtain ⟨_, h | h⟩ := hab
  · exact absurd h0 h.1
  · have := h.2.1
    simp only [SIZEOF_DIRENT] at this
    omega

end ListLinux
